import Mathlib

/-!
# CalX-Backend — verification of the sanitization / chunking / continuation core

Shallow embedding of the CalX backend's AI-response pipeline
(`src/sanitization.service.ts` and the AI service in `src/index.ts`):

* `sanitizeAIResponse` — markdown stripping, math-symbol substitution, table
  flattening and whitespace normalization;
* `chunkResponse` / `findSafeBoundary` — bounded chunking at safe boundaries;
* `processAIQuery` / `continueAIQuery` — the cursor-based continuation
  protocol over the `ai_chunks` store.

JavaScript strings are modelled as `List Char`; regular-expression passes are
modelled as explicit left-to-right scanners with the same match/replace
semantics as the `String.replace` calls of the source (greedy/lazy behaviour
and the `/g`/`/m` flags are reproduced where they matter and noted inline).
-/

set_option autoImplicit false

namespace CalX

set_option maxRecDepth 200000

/-! ## Character classes

`isWs` is the JavaScript `\s` class (ECMAScript WhiteSpace ∪ LineTerminator),
which is also the set trimmed by `String.prototype.trim`. -/

def isWs (c : Char) : Bool :=
  c.toNat = 9 ∨ c.toNat = 10 ∨ c.toNat = 11 ∨ c.toNat = 12 ∨ c.toNat = 13 ∨
  c.toNat = 32 ∨ c.toNat = 160 ∨ c.toNat = 0x1680 ∨
  (0x2000 ≤ c.toNat ∧ c.toNat ≤ 0x200A) ∨
  c.toNat = 0x2028 ∨ c.toNat = 0x2029 ∨ c.toNat = 0x202F ∨
  c.toNat = 0x205F ∨ c.toNat = 0x3000 ∨ c.toNat = 0xFEFF

/-- The JavaScript `\d` class. -/
def isDigitCh (c : Char) : Bool := 48 ≤ c.toNat ∧ c.toNat ≤ 57

/-- Backquote character. -/
def backquoteCh : Char := Char.ofNat 96

/-- Opening curly brace character. -/
def openBraceCh : Char := Char.ofNat 123

/-- Closing curly brace character. -/
def closeBraceCh : Char := Char.ofNat 125

/-- The bullet glyph `U+2022` that `stripMarkdown` substitutes for `-`/`*`/`+`
list markers. -/
def bulletCh : Char := Char.ofNat 0x2022

/-! ## `String.prototype.trim` -/

/-- Remove leading JavaScript whitespace. -/
def trimLeft (l : List Char) : List Char := l.dropWhile isWs

/-- Remove trailing JavaScript whitespace. -/
def trimRight (l : List Char) : List Char := (l.reverse.dropWhile isWs).reverse

/-- JavaScript `String.prototype.trim`. -/
def trimJS (l : List Char) : List Char := trimRight (trimLeft l)

/-- A whitespace-only string. -/
def wsOnly (l : List Char) : Prop := ∀ c ∈ l, isWs c = true

instance wsOnly.instDecidable (l : List Char) : Decidable (wsOnly l) := by
  unfold wsOnly; infer_instance

/-! ## `split('\n')` / `join('\n')`

JavaScript `s.split('\n')` always returns at least one element; `splitNl`
mirrors that. -/

def splitNl : List Char → List (List Char)
  | [] => [[]]
  | c :: rest =>
    if c = '\n' then [] :: splitNl rest
    else
      match splitNl rest with
      | [] => [[c]]
      | r :: rs => (c :: r) :: rs

/-- `Array.prototype.join(sep)`. -/
def joinWith (sep : List Char) : List (List Char) → List Char
  | [] => []
  | [l] => l
  | l :: ls => l ++ sep ++ joinWith sep ls

/-- `Array.prototype.join('\n')`. -/
def joinNl (ls : List (List Char)) : List Char := joinWith ['\n'] ls

/-! ## `normalizeWhitespace` (sanitization.service.ts, lines 380–399) -/

/-- `result.replace(/  +/g, ' ')`: each maximal run of two or more space
characters is replaced by a single space (the regex is greedy, so a match
always covers a maximal run).

Every scanner in this file is written with a fuel argument so that it is
structurally recursive (and therefore evaluates by kernel reduction): each
step consumes at least one input character, so `length` fuel always suffices;
an exhausted-fuel step returns the remaining input unchanged and is never
reached from the wrappers below. -/
def collapseSpacesGo : Nat → List Char → List Char
  | 0, l => l
  | _ + 1, [] => []
  | fuel + 1, c :: rest =>
    if c = ' ' ∧ rest.head? = some ' ' then
      ' ' :: collapseSpacesGo fuel (rest.dropWhile (fun x => x = ' '))
    else
      c :: collapseSpacesGo fuel rest

def collapseSpaces (content : List Char) : List Char :=
  collapseSpacesGo content.length content

/-- `result.replace(/\n{3,}/g, '\n\n')`: each maximal run of three or more
newlines is replaced by exactly two. -/
def collapseNewlinesGo : Nat → List Char → List Char
  | 0, l => l
  | _ + 1, [] => []
  | fuel + 1, c :: rest =>
    if c = '\n' ∧ rest.head? = some '\n' ∧ (rest.drop 1).head? = some '\n' then
      '\n' :: '\n' :: collapseNewlinesGo fuel (rest.dropWhile (fun x => x = '\n'))
    else
      c :: collapseNewlinesGo fuel rest

def collapseNewlines (content : List Char) : List Char :=
  collapseNewlinesGo content.length content

/-- `normalizeWhitespace` from sanitization.service.ts: collapse space runs,
collapse newline runs, trim every line, trim the whole string. -/
def normalizeWhitespace (content : List Char) : List Char :=
  trimJS (joinNl ((splitNl (collapseNewlines (collapseSpaces content))).map trimJS))

/-! ## `stripCodeBlocks` (sanitization.service.ts, lines 150–164) -/

/-- Split a string at the first occurrence of a triple backquote fence:
returns the part before the fence and the part after it. -/
def splitAtFence : List Char → Option (List Char × List Char)
  | [] => none
  | c :: rest =>
    if c = backquoteCh ∧ rest.take 2 = [backquoteCh, backquoteCh] then
      some ([], rest.drop 2)
    else
      (splitAtFence rest).map (fun p => (c :: p.1, p.2))

/-- The replacement for a fenced block match: the matched text (fences
included) split on newlines with the first and last line removed
(`match.split('\n').slice(1, -1).join('\n')`). -/
def fencedReplacement (mid : List Char) : List Char :=
  joinNl (((splitNl ([backquoteCh, backquoteCh, backquoteCh] ++ mid ++
    [backquoteCh, backquoteCh, backquoteCh])).drop 1).dropLast)

/-- `content.replace(/```[\s\S]*?```/g, ...)`: lazy matching pairs up each
fence with the next one; a final unpaired fence matches nothing. -/
def stripFencedGo : Nat → List Char → List Char
  | 0, l => l
  | fuel + 1, l =>
    match splitAtFence l with
    | none => l
    | some (pre, rest1) =>
      match splitAtFence rest1 with
      | none => l
      | some (mid, rest2) => pre ++ fencedReplacement mid ++ stripFencedGo fuel rest2

def stripFenced (content : List Char) : List Char :=
  stripFencedGo content.length content

/-- `result.replace(/`([^`]+)`/g, '$1')`: an inline code span keeps its inner
text and loses the backquotes. -/
def stripInlineCodeGo : Nat → List Char → List Char
  | 0, l => l
  | _ + 1, [] => []
  | fuel + 1, c :: rest =>
    if c = backquoteCh ∧ rest.takeWhile (fun x => x ≠ backquoteCh) ≠ [] ∧
        rest.drop (rest.takeWhile (fun x => x ≠ backquoteCh)).length ≠ [] then
      rest.takeWhile (fun x => x ≠ backquoteCh) ++
        stripInlineCodeGo fuel (rest.drop ((rest.takeWhile (fun x => x ≠ backquoteCh)).length + 1))
    else
      c :: stripInlineCodeGo fuel rest

def stripInlineCode (content : List Char) : List Char :=
  stripInlineCodeGo content.length content

/-- `stripCodeBlocks` from sanitization.service.ts. -/
def stripCodeBlocks (content : List Char) : List Char :=
  stripInlineCode (stripFenced content)

/-! ## `stripMarkdown` (sanitization.service.ts, lines 170–204)

Each `replace` is one scanner pass. For the `/gm` patterns anchored at `^`,
the scanner carries an `atStart` flag that is true exactly when the current
position is the start of the string or preceded by a newline (multiline `^`
semantics). A greedy `\s+`/`\s*` may consume newlines, so after a match the
flag is recomputed from the last consumed character. -/

/-- `result.replace(/^#{1,6}\s+/gm, '')`. -/
def stripHeadersGo : Nat → List Char → Bool → List Char
  | 0, l, _ => l
  | _ + 1, [], _ => []
  | fuel + 1, c :: rest, atStart =>
    let hs := rest.takeWhile (fun x => x = '#')
    let afterHash := rest.drop hs.length
    let ws := afterHash.takeWhile isWs
    if c = '#' ∧ atStart ∧ hs.length + 1 ≤ 6 ∧ ws ≠ [] then
      stripHeadersGo fuel (afterHash.drop ws.length) (ws.getLast? == some '\n')
    else
      c :: stripHeadersGo fuel rest (c == '\n')

def stripHeaders (content : List Char) : List Char :=
  stripHeadersGo content.length content true

/-- `result.replace(/\*\*([^*]+)\*\*/g, '$1')`. -/
def stripBoldStarsGo : Nat → List Char → List Char
  | 0, l => l
  | _ + 1, [] => []
  | fuel + 1, c :: rest =>
    let inner := (rest.drop 1).takeWhile (fun x => x ≠ '*')
    let after := (rest.drop 1).drop inner.length
    if c = '*' ∧ rest.head? = some '*' ∧ inner ≠ [] ∧ after.take 2 = ['*', '*'] then
      inner ++ stripBoldStarsGo fuel (after.drop 2)
    else
      c :: stripBoldStarsGo fuel rest

def stripBoldStars (content : List Char) : List Char :=
  stripBoldStarsGo content.length content

/-- `result.replace(/__([^_]+)__/g, '$1')`. -/
def stripBoldUnderscoresGo : Nat → List Char → List Char
  | 0, l => l
  | _ + 1, [] => []
  | fuel + 1, c :: rest =>
    let inner := (rest.drop 1).takeWhile (fun x => x ≠ '_')
    let after := (rest.drop 1).drop inner.length
    if c = '_' ∧ rest.head? = some '_' ∧ inner ≠ [] ∧ after.take 2 = ['_', '_'] then
      inner ++ stripBoldUnderscoresGo fuel (after.drop 2)
    else
      c :: stripBoldUnderscoresGo fuel rest

def stripBoldUnderscores (content : List Char) : List Char :=
  stripBoldUnderscoresGo content.length content

/-- `result.replace(/\*([^*]+)\*/g, '$1')`. -/
def stripItalicStarsGo : Nat → List Char → List Char
  | 0, l => l
  | _ + 1, [] => []
  | fuel + 1, c :: rest =>
    let inner := rest.takeWhile (fun x => x ≠ '*')
    if c = '*' ∧ inner ≠ [] ∧ (rest.drop inner.length).head? = some '*' then
      inner ++ stripItalicStarsGo fuel (rest.drop (inner.length + 1))
    else
      c :: stripItalicStarsGo fuel rest

def stripItalicStars (content : List Char) : List Char :=
  stripItalicStarsGo content.length content

/-- `result.replace(/_([^_]+)_/g, '$1')`. -/
def stripItalicUnderscoresGo : Nat → List Char → List Char
  | 0, l => l
  | _ + 1, [] => []
  | fuel + 1, c :: rest =>
    let inner := rest.takeWhile (fun x => x ≠ '_')
    if c = '_' ∧ inner ≠ [] ∧ (rest.drop inner.length).head? = some '_' then
      inner ++ stripItalicUnderscoresGo fuel (rest.drop (inner.length + 1))
    else
      c :: stripItalicUnderscoresGo fuel rest

def stripItalicUnderscores (content : List Char) : List Char :=
  stripItalicUnderscoresGo content.length content

/-- `result.replace(/~~([^~]+)~~/g, '$1')`. -/
def stripStrikethroughGo : Nat → List Char → List Char
  | 0, l => l
  | _ + 1, [] => []
  | fuel + 1, c :: rest =>
    let inner := (rest.drop 1).takeWhile (fun x => x ≠ '~')
    let after := (rest.drop 1).drop inner.length
    if c = '~' ∧ rest.head? = some '~' ∧ inner ≠ [] ∧ after.take 2 = ['~', '~'] then
      inner ++ stripStrikethroughGo fuel (after.drop 2)
    else
      c :: stripStrikethroughGo fuel rest

def stripStrikethrough (content : List Char) : List Char :=
  stripStrikethroughGo content.length content

/-- `result.replace(/\[([^\]]+)\]\(([^)]+)\)/g, '$1')`. -/
def stripLinksGo : Nat → List Char → List Char
  | 0, l => l
  | _ + 1, [] => []
  | fuel + 1, c :: rest =>
    let txt := rest.takeWhile (fun x => x ≠ ']')
    let afterTxt := rest.drop txt.length
    let url := (afterTxt.drop 2).takeWhile (fun x => x ≠ ')')
    if c = '[' ∧ txt ≠ [] ∧ afterTxt.head? = some ']' ∧
        (afterTxt.drop 1).head? = some '(' ∧ url ≠ [] ∧
        ((afterTxt.drop 2).drop url.length).head? = some ')' then
      txt ++ stripLinksGo fuel ((afterTxt.drop 2).drop (url.length + 1))
    else
      c :: stripLinksGo fuel rest

def stripLinks (content : List Char) : List Char :=
  stripLinksGo content.length content

/-- `result.replace(/!\[([^\]]*)\]\(([^)]+)\)/g, '$1')` (the alt text may be
empty). -/
def stripImagesGo : Nat → List Char → List Char
  | 0, l => l
  | _ + 1, [] => []
  | fuel + 1, c :: rest =>
    let alt := (rest.drop 1).takeWhile (fun x => x ≠ ']')
    let afterAlt := (rest.drop 1).drop alt.length
    let url := (afterAlt.drop 2).takeWhile (fun x => x ≠ ')')
    if c = '!' ∧ rest.head? = some '[' ∧ afterAlt.head? = some ']' ∧
        (afterAlt.drop 1).head? = some '(' ∧ url ≠ [] ∧
        ((afterAlt.drop 2).drop url.length).head? = some ')' then
      alt ++ stripImagesGo fuel ((afterAlt.drop 2).drop (url.length + 1))
    else
      c :: stripImagesGo fuel rest

def stripImages (content : List Char) : List Char :=
  stripImagesGo content.length content

/-- `result.replace(/^>\s*/gm, '')`. -/
def stripBlockquotesGo : Nat → List Char → Bool → List Char
  | 0, l, _ => l
  | _ + 1, [], _ => []
  | fuel + 1, c :: rest, atStart =>
    let ws := rest.takeWhile isWs
    if c = '>' ∧ atStart then
      stripBlockquotesGo fuel (rest.drop ws.length) (ws.getLast? == some '\n')
    else
      c :: stripBlockquotesGo fuel rest (c == '\n')

def stripBlockquotes (content : List Char) : List Char :=
  stripBlockquotesGo content.length content true

/-- `result.replace(/^[-*_]{3,}$/gm, '')` (`$` is a lookahead: the newline is
not consumed). -/
def stripHorizontalRulesGo : Nat → List Char → Bool → List Char
  | 0, l, _ => l
  | _ + 1, [], _ => []
  | fuel + 1, c :: rest, atStart =>
    let run := rest.takeWhile (fun x => x = '-' ∨ x = '*' ∨ x = '_')
    if atStart ∧ (c = '-' ∨ c = '*' ∨ c = '_') ∧ 3 ≤ run.length + 1 ∧
        ((rest.drop run.length).head? = none ∨ (rest.drop run.length).head? = some '\n') then
      stripHorizontalRulesGo fuel (rest.drop run.length) false
    else
      c :: stripHorizontalRulesGo fuel rest (c == '\n')

def stripHorizontalRules (content : List Char) : List Char :=
  stripHorizontalRulesGo content.length content true

/-- `result.replace(/^[\s]*[-*+]\s+/gm, '• ')`. -/
def stripListMarkersGo : Nat → List Char → Bool → List Char
  | 0, l, _ => l
  | _ + 1, [], _ => []
  | fuel + 1, c :: rest, atStart =>
    let ws := (c :: rest).takeWhile isWs
    let after := (c :: rest).drop ws.length
    let ws2 := (after.drop 1).takeWhile isWs
    if atStart ∧ (after.head? = some '-' ∨ after.head? = some '*' ∨
        after.head? = some '+') ∧ ws2 ≠ [] then
      bulletCh :: ' ' :: stripListMarkersGo fuel ((after.drop 1).drop ws2.length)
        (ws2.getLast? == some '\n')
    else
      c :: stripListMarkersGo fuel rest (c == '\n')

def stripListMarkers (content : List Char) : List Char :=
  stripListMarkersGo content.length content true

/-- `result.replace(/^[\s]*\d+\.\s+/gm, '')`. -/
def stripOrderedMarkersGo : Nat → List Char → Bool → List Char
  | 0, l, _ => l
  | _ + 1, [], _ => []
  | fuel + 1, c :: rest, atStart =>
    let ws := (c :: rest).takeWhile isWs
    let after := (c :: rest).drop ws.length
    let digits := after.takeWhile isDigitCh
    let afterDot := (after.drop digits.length).drop 1
    let ws2 := afterDot.takeWhile isWs
    if atStart ∧ digits ≠ [] ∧ (after.drop digits.length).head? = some '.' ∧
        ws2 ≠ [] then
      stripOrderedMarkersGo fuel (afterDot.drop ws2.length) (ws2.getLast? == some '\n')
    else
      c :: stripOrderedMarkersGo fuel rest (c == '\n')

def stripOrderedMarkers (content : List Char) : List Char :=
  stripOrderedMarkersGo content.length content true

/-- `stripMarkdown` from sanitization.service.ts: the eleven `replace` passes
in source order. -/
def stripMarkdown (content : List Char) : List Char :=
  stripOrderedMarkers
    (stripListMarkers
      (stripHorizontalRules
        (stripBlockquotes
          (stripImages
            (stripLinks
              (stripStrikethrough
                (stripItalicUnderscores
                  (stripItalicStars
                    (stripBoldUnderscores
                      (stripBoldStars
                        (stripHeaders content)))))))))))

/-! ## `convertMathSymbols` (sanitization.service.ts, lines 210–340) -/

/-- `content.replace(/c/g, rep)` for a single-character pattern. -/
def replaceCh (c : Char) (rep : List Char) : List Char → List Char
  | [] => []
  | a :: rest => (if a = c then rep else [a]) ++ replaceCh c rep rest

/-- The square-root glyph `U+221A`. -/
def sqrtCh : Char := Char.ofNat 0x221A

/-- `[/√\(([^)]+)\)/g, 'sqrt($1)']`. -/
def sqrtParenGo : Nat → List Char → List Char
  | 0, l => l
  | _ + 1, [] => []
  | fuel + 1, c :: rest =>
    let inner := (rest.drop 1).takeWhile (fun x => x ≠ ')')
    if c = sqrtCh ∧ rest.head? = some '(' ∧ inner ≠ [] ∧
        ((rest.drop 1).drop inner.length).head? = some ')' then
      "sqrt(".toList ++ inner ++ ")".toList ++
        sqrtParenGo fuel ((rest.drop 1).drop (inner.length + 1))
    else
      c :: sqrtParenGo fuel rest

def sqrtParen (content : List Char) : List Char :=
  sqrtParenGo content.length content

/-- `[/√(\d+)/g, 'sqrt($1)']`. -/
def sqrtNumGo : Nat → List Char → List Char
  | 0, l => l
  | _ + 1, [] => []
  | fuel + 1, c :: rest =>
    let digits := rest.takeWhile isDigitCh
    if c = sqrtCh ∧ digits ≠ [] then
      "sqrt(".toList ++ digits ++ ")".toList ++ sqrtNumGo fuel (rest.drop digits.length)
    else
      c :: sqrtNumGo fuel rest

def sqrtNum (content : List Char) : List Char :=
  sqrtNumGo content.length content

/-- The single-glyph entries of the `convertMathSymbols` replacement table, in
source order (everything after the three square-root patterns). -/
def mathTable : List (Char × List Char) :=
  [(Char.ofNat 0x221A, "sqrt".toList),          -- √
   (Char.ofNat 0x222B, "Integral of ".toList),  -- ∫
   (Char.ofNat 0x2211, "Sum of ".toList),       -- ∑
   (Char.ofNat 0x03A3, "Sum of ".toList),       -- Σ
   (Char.ofNat 0x220F, "Product of ".toList),   -- ∏
   (Char.ofNat 0x03A0, "Product of ".toList),   -- Π
   (Char.ofNat 0x221E, "infinity".toList),      -- ∞
   (Char.ofNat 0x00B1, "+/-".toList),           -- ±
   (Char.ofNat 0x00D7, "*".toList),             -- ×
   (Char.ofNat 0x22C5, "*".toList),             -- ⋅
   (Char.ofNat 0x00F7, "/".toList),             -- ÷
   (Char.ofNat 0x2260, "!=".toList),            -- ≠
   (Char.ofNat 0x2264, "<=".toList),            -- ≤
   (Char.ofNat 0x2265, ">=".toList),            -- ≥
   (Char.ofNat 0x2248, "~=".toList),            -- ≈
   (Char.ofNat 0x221D, " proportional to ".toList), -- ∝
   (Char.ofNat 0x00B0, " degrees".toList),      -- °
   (Char.ofNat 0x03C0, "pi".toList),            -- π
   (Char.ofNat 0x03B8, "theta".toList),         -- θ
   (Char.ofNat 0x03B1, "alpha".toList),         -- α
   (Char.ofNat 0x03B2, "beta".toList),          -- β
   (Char.ofNat 0x03B3, "gamma".toList),         -- γ
   (Char.ofNat 0x03B4, "delta".toList),         -- δ
   (Char.ofNat 0x0394, "Delta".toList),         -- Δ
   (Char.ofNat 0x03BB, "lambda".toList),        -- λ
   (Char.ofNat 0x03BC, "mu".toList),            -- μ
   (Char.ofNat 0x03C3, "sigma".toList),         -- σ
   (Char.ofNat 0x03C9, "omega".toList),         -- ω
   (Char.ofNat 0x03A9, "Omega".toList),         -- Ω
   (Char.ofNat 0x2192, "->".toList),            -- →
   (Char.ofNat 0x2190, "<-".toList),            -- ←
   (Char.ofNat 0x2194, "<->".toList),           -- ↔
   (Char.ofNat 0x21D2, "=>".toList),            -- ⇒
   (Char.ofNat 0x21D0, "<=".toList),            -- ⇐
   (Char.ofNat 0x2080, "_0".toList),            -- ₀
   (Char.ofNat 0x2081, "_1".toList),
   (Char.ofNat 0x2082, "_2".toList),
   (Char.ofNat 0x2083, "_3".toList),
   (Char.ofNat 0x2084, "_4".toList),
   (Char.ofNat 0x2085, "_5".toList),
   (Char.ofNat 0x2086, "_6".toList),
   (Char.ofNat 0x2087, "_7".toList),
   (Char.ofNat 0x2088, "_8".toList),
   (Char.ofNat 0x2089, "_9".toList),
   (Char.ofNat 0x2099, "_n".toList),            -- ₙ
   (Char.ofNat 0x2093, "_x".toList),            -- ₓ
   (Char.ofNat 0x1D62, "_i".toList),            -- ᵢ
   (Char.ofNat 0x2C7C, "_j".toList),            -- ⱼ
   (Char.ofNat 0x2070, "^0".toList),            -- ⁰
   (Char.ofNat 0x00B9, "^1".toList),            -- ¹
   (Char.ofNat 0x00B2, "^2".toList),            -- ²
   (Char.ofNat 0x00B3, "^3".toList),            -- ³
   (Char.ofNat 0x2074, "^4".toList),
   (Char.ofNat 0x2075, "^5".toList),
   (Char.ofNat 0x2076, "^6".toList),
   (Char.ofNat 0x2077, "^7".toList),
   (Char.ofNat 0x2078, "^8".toList),
   (Char.ofNat 0x2079, "^9".toList),
   (Char.ofNat 0x207F, "^n".toList),            -- ⁿ
   (Char.ofNat 0x00BD, "1/2".toList),           -- ½
   (Char.ofNat 0x2153, "1/3".toList),           -- ⅓
   (Char.ofNat 0x00BC, "1/4".toList),           -- ¼
   (Char.ofNat 0x2155, "1/5".toList),           -- ⅕
   (Char.ofNat 0x2159, "1/6".toList),           -- ⅙
   (Char.ofNat 0x2150, "1/7".toList),           -- ⅐
   (Char.ofNat 0x215B, "1/8".toList),           -- ⅛
   (Char.ofNat 0x2151, "1/9".toList),           -- ⅑
   (Char.ofNat 0x2152, "1/10".toList),          -- ⅒
   (Char.ofNat 0x2154, "2/3".toList),           -- ⅔
   (Char.ofNat 0x00BE, "3/4".toList),           -- ¾
   (Char.ofNat 0x2156, "2/5".toList),           -- ⅖
   (Char.ofNat 0x2157, "3/5".toList),           -- ⅗
   (Char.ofNat 0x2158, "4/5".toList)]           -- ⅘

/-- `convertMathSymbols` from sanitization.service.ts: the two square-root
regexes with arguments, then the bare square-root glyph and all single-glyph
substitutions, applied sequentially in table order. -/
def convertMathSymbols (content : List Char) : List Char :=
  mathTable.foldl (fun acc e => replaceCh e.1 e.2 acc) (sqrtNum (sqrtParen content))

/-! ## `convertTables` (sanitization.service.ts, lines 346–374) -/

/-- `line.split('|')`. -/
def splitPipe : List Char → List (List Char)
  | [] => [[]]
  | c :: rest =>
    if c = '|' then [] :: splitPipe rest
    else
      match splitPipe rest with
      | [] => [[c]]
      | r :: rs => (c :: r) :: rs

/-- `/^\|[-:| ]+\|$/.test(line.trim())`: the trimmed line is a pipe, one or
more separator-class characters, and a closing pipe. -/
def sepLineTest (line : List Char) : Bool :=
  match trimJS line with
  | [] => false
  | c :: rest =>
    c = '|' ∧ rest ≠ [] ∧ rest.getLast? = some '|' ∧ rest.dropLast ≠ [] ∧
      rest.dropLast.all (fun x => x = '-' ∨ x = ':' ∨ x = '|' ∨ x = ' ')

/-- The indices of `'|'` characters in a line. -/
def pipeIdxs (line : List Char) : List Nat :=
  (List.range line.length).filter (fun i => line.get? i = some '|')

/-- `tablePattern.test(line)` where `tablePattern = /\|(.+)\|/g`.

Because the regex carries the `/g` flag and is reused across `test` calls,
it is stateful: matching starts at `lastIndex`; on a match `lastIndex` moves
past the match (the greedy `.+` runs to the last pipe of the line), on a
failure it resets to `0`. Returns the test result and the new `lastIndex`. -/
def tableRowTest (line : List Char) (lastIndex : Nat) : Bool × Nat :=
  let idxs := pipeIdxs line
  let candidates := (idxs.filter (fun p => lastIndex ≤ p)).filter
    (fun p => idxs.any (fun q => p + 2 ≤ q))
  match candidates.head? with
  | none => (false, 0)
  | some _ => (true, (idxs.getLast?.getD 0) + 1)

/-- A matched table row: `split('|')`, drop cells that are empty after
trimming, trim the rest, re-join with `' | '`. -/
def tableRowCells (line : List Char) : List Char :=
  joinWith " | ".toList (((splitPipe line).filter (fun cell => trimJS cell ≠ [])).map trimJS)

/-- The line loop of `convertTables`, threading the `tablePattern.lastIndex`
state. -/
def convertTablesGo : List (List Char) → Nat → List (List Char)
  | [], _ => []
  | line :: rest, tIdx =>
    if sepLineTest line then convertTablesGo rest tIdx
    else
      let r := tableRowTest line tIdx
      if r.1 then tableRowCells line :: convertTablesGo rest r.2
      else line :: convertTablesGo rest r.2

/-- `convertTables` from sanitization.service.ts. -/
def convertTables (content : List Char) : List Char :=
  joinNl (convertTablesGo (splitNl content) 0)

/-! ## `sanitizeAIResponse` and `checkContentPolicy`
(sanitization.service.ts, lines 14–33 and 405–412) -/

/-- `sanitizeAIResponse`: the five pipeline stages in source order. -/
def sanitizeAIResponse (content : List Char) : List Char :=
  normalizeWhitespace (convertTables (convertMathSymbols (stripMarkdown (stripCodeBlocks content))))

/-- Result of the content-policy screen. -/
structure PolicyResult where
  safe : Bool
  reason : Option (List Char)
deriving DecidableEq, Repr

/-- `checkContentPolicy`: the placeholder policy screen always reports the
content safe. -/
def checkContentPolicy (_content : List Char) : PolicyResult :=
  PolicyResult.mk true none

/-! ## Chunking (sanitization.service.ts, lines 39–144) -/

/-- `isInsideBrackets(text, position)`: in `text.substring(0, position)`,
some bracket kind has more opens than closes. -/
def isInsideBrackets (text : List Char) (position : Nat) : Bool :=
  let before := text.take position
  before.count '(' > before.count ')' ∨
  before.count '[' > before.count ']' ∨
  before.count openBraceCh > before.count closeBraceCh

/-- The character after position `i` exists and is `\s`. -/
def wsAfter (text : List Char) (i : Nat) : Bool :=
  match text.get? (i + 1) with
  | some c => isWs c
  | none => false

/-- Position `i` matches one of the sentence-end patterns
`/\.\s/ /!\s/ /\?\s/ /\n/`. -/
def sentAt (text : List Char) (i : Nat) : Bool :=
  ((text.get? i = some '.' ∨ text.get? i = some '!' ∨ text.get? i = some '?') ∧
    wsAfter text i) ∨
  text.get? i = some '\n'

/-- Position `i` matches the clause-end pattern `/[,;:]\s/`. -/
def clauseAt (text : List Char) (i : Nat) : Bool :=
  (text.get? i = some ',' ∨ text.get? i = some ';' ∨ text.get? i = some ':') ∧
    wsAfter text i

/-- `findLastSentenceEnd`: the maximum of `match.index + 1` over all pattern
occurrences not inside brackets, `-1` if none.  (The regex `exec` loop visits
every matching position: two occurrences of any one of these patterns can
never overlap, since a sentence character and a whitespace character are
distinct.) -/
def findLastSentenceEnd (text : List Char) : Int :=
  (((List.range text.length).filter
      (fun i => sentAt text i ∧ ¬ isInsideBrackets text i)).map
    (fun i => Int.ofNat i + 1)).foldl max (-1)

/-- `findLastClauseEnd`: the last `match.index + 1` over clause matches not
inside brackets, `-1` if none (`exec` visits matches left to right, so the
last assignment is the maximum). -/
def findLastClauseEnd (text : List Char) : Int :=
  (((List.range text.length).filter
      (fun i => clauseAt text i ∧ ¬ isInsideBrackets text i)).map
    (fun i => Int.ofNat i + 1)).foldl max (-1)

/-- `text.lastIndexOf(' ')`. -/
def lastIndexOfSpace (text : List Char) : Int :=
  (((List.range text.length).filter (fun i => text.get? i = some ' ')).map
    Int.ofNat).foldl max (-1)

/-- Which rule of `findSafeBoundary` selected the cut. -/
inductive BoundaryRule where
  | sentenceEndRule
  | clauseEndRule
  | wordEndRule
  | hardCutRule
deriving DecidableEq, Repr

/-- `findSafeBoundary`, instrumented with the rule that fired.  The source
compares against `maxLen * 0.5`; for the integer values involved,
`x > maxLen * 0.5` is exactly `2 * x > maxLen` (the float products are
exact). -/
def findSafeBoundaryT (text : List Char) : Nat × BoundaryRule :=
  let maxLen := text.length
  let sentenceEnd := findLastSentenceEnd text
  if 2 * sentenceEnd > (maxLen : Int) then (sentenceEnd.toNat, BoundaryRule.sentenceEndRule)
  else
    let clauseEnd := findLastClauseEnd text
    if 2 * clauseEnd > (maxLen : Int) then (clauseEnd.toNat, BoundaryRule.clauseEndRule)
    else
      let wordEnd := lastIndexOfSpace text
      if 2 * wordEnd > (maxLen : Int) then (wordEnd.toNat, BoundaryRule.wordEndRule)
      else (maxLen, BoundaryRule.hardCutRule)

/-- `findSafeBoundary` from sanitization.service.ts. -/
def findSafeBoundary (text : List Char) : Nat := (findSafeBoundaryT text).1

/-- The `while (remaining.length > 0)` loop of `chunkResponse`.  The loop in
the source terminates because every iteration consumes at least one character
whenever `maxChunkSize ≥ 1`; the embedding makes this explicit with a fuel
argument — `remaining.length` steps always suffice (`chunkLoop_fuel_free`
below). -/
def chunkLoop (maxChunkSize : Nat) : Nat → List Char → List (List Char)
  | 0, _ => []
  | fuel + 1, remaining =>
    if remaining = [] then []
    else if remaining.length ≤ maxChunkSize then [remaining]
    else
      let chunk := remaining.take maxChunkSize
      let boundary := findSafeBoundary chunk
      trimJS (chunk.take boundary) ::
        chunkLoop maxChunkSize fuel (trimJS (remaining.drop boundary))

/-- `chunkResponse` from sanitization.service.ts. -/
def chunkResponse (content : List Char) (maxChunkSize : Nat) : List (List Char) :=
  if content.length ≤ maxChunkSize then [content]
  else chunkLoop maxChunkSize content.length content

/-- The cut positions taken by the `chunkResponse` loop, instrumented with
the boundary rule: for each iteration that cuts, the pair of the text before
the cut (`remaining.substring(0, boundary)`, i.e. the part of the current
window that becomes the fragment, before trimming) and the rule that chose
the boundary. -/
def chunkCutsLoop (maxChunkSize : Nat) : Nat → List Char → List (List Char × BoundaryRule)
  | 0, _ => []
  | fuel + 1, remaining =>
    if remaining = [] then []
    else if remaining.length ≤ maxChunkSize then []
    else
      let chunk := remaining.take maxChunkSize
      let bt := findSafeBoundaryT chunk
      (chunk.take bt.1, bt.2) ::
        chunkCutsLoop maxChunkSize fuel (trimJS (remaining.drop bt.1))

/-- All cuts made by `chunkResponse content maxChunkSize`. -/
def chunkCuts (content : List Char) (maxChunkSize : Nat) : List (List Char × BoundaryRule) :=
  if content.length ≤ maxChunkSize then []
  else chunkCutsLoop maxChunkSize content.length content

/-! ## The AI query orchestrator (src/index.ts, lines 95–248)

Only the part of `processAIQuery` downstream of the provider call is
modelled: the device lookup, provider dispatch and activity logging do not
affect the continuation protocol.  The `ai_chunks` table is modelled as a
list of records; `query_id` has a unique index (prisma migration
`ai_chunks_query_id_key`), so `findUnique`/`update`/`delete` by `queryId`
touch at most one record and are modelled by `find?`/`map`/`filter`.
Timestamps are integers; `new Date()` is the `now` parameter. -/

/-- The JSON response shape `AIQueryResponse`. -/
structure AIQueryResponse where
  chunk : List Char
  has_more : Bool
  cursor : Option Nat
deriving DecidableEq, Repr

/-- A row of the `ai_chunks` table. -/
structure ChunkRecord where
  queryId : Nat
  chunks : List (List Char)
  cursor : Nat
  expiresAt : Int
deriving DecidableEq, Repr

/-- The `ai_chunks` table. -/
abbrev ChunkStore := List ChunkRecord

/-- `NotFoundError` — the only failure `continueAIQuery` raises. -/
inductive QueryFailure where
  | notFound (msg : List Char)
deriving DecidableEq, Repr

instance exceptDecEq {e a : Type} [DecidableEq e] [DecidableEq a] :
    DecidableEq (Except e a) := fun x y =>
  match x, y with
  | .ok v, .ok w =>
    if h : v = w then isTrue (by rw [h]) else isFalse (by intro hc; cases hc; exact h rfl)
  | .error v, .error w =>
    if h : v = w then isTrue (by rw [h]) else isFalse (by intro hc; cases hc; exact h rfl)
  | .ok _, .error _ => isFalse (by intro hc; cases hc)
  | .error _, .ok _ => isFalse (by intro hc; cases hc)

/-- The fixed blocked-content fragment of the policy branch. -/
def blockedChunk : List Char := "Content blocked by policy".toList

/-- `prisma.aIChunk.delete` by the unique `queryId`. -/
def deleteRecord (queryId : Nat) (st : ChunkStore) : ChunkStore :=
  st.filter (fun r => ¬ r.queryId = queryId)

/-- `prisma.aIChunk.update` of `cursor` by the unique `queryId`. -/
def updateRecordCursor (queryId newCursor : Nat) (st : ChunkStore) : ChunkStore :=
  st.map (fun r =>
    if r.queryId = queryId then ChunkRecord.mk r.queryId r.chunks newCursor r.expiresAt
    else r)

/-- `processAIQuery` (src/index.ts lines 145–197), from the raw provider
response onward.  `screen` is the content-policy collaborator
(`checkContentPolicy` in the source), `queryId` the value produced by
`generateQueryId()`, and `ttl` the configured `aiChunkTTL`. -/
def processAIQuery (screen : List Char → PolicyResult) (rawResponse : List Char)
    (maxChunkSize queryId : Nat) (now ttl : Int) (st : ChunkStore) :
    AIQueryResponse × ChunkStore :=
  if (screen rawResponse).safe = false then
    (AIQueryResponse.mk blockedChunk false none, st)
  else
    let sanitized := sanitizeAIResponse rawResponse
    let chunks := chunkResponse sanitized maxChunkSize
    if chunks.length = 1 then
      (AIQueryResponse.mk (chunks.headD []) false none, st)
    else
      (AIQueryResponse.mk (chunks.headD []) true (some queryId),
        ChunkRecord.mk queryId (chunks.drop 1) 1 (now + ttl) :: st)

/-- `processAIQuery` with the policy branch removed (sanitize, chunk,
store). -/
def processAIQueryUnscreened (rawResponse : List Char)
    (maxChunkSize queryId : Nat) (now ttl : Int) (st : ChunkStore) :
    AIQueryResponse × ChunkStore :=
  let sanitized := sanitizeAIResponse rawResponse
  let chunks := chunkResponse sanitized maxChunkSize
  if chunks.length = 1 then
    (AIQueryResponse.mk (chunks.headD []) false none, st)
  else
    (AIQueryResponse.mk (chunks.headD []) true (some queryId),
      ChunkRecord.mk queryId (chunks.drop 1) 1 (now + ttl) :: st)

/-- `continueAIQuery` (src/index.ts lines 203–248).  Returns the result (or
the thrown `NotFoundError`) together with the resulting table state — in the
source, deletes performed before a throw are committed. -/
def continueAIQuery (cursor : Nat) (now : Int) (st : ChunkStore) :
    Except QueryFailure AIQueryResponse × ChunkStore :=
  match st.find? (fun r => r.queryId = cursor) with
  | none => (Except.error (QueryFailure.notFound "Query not found or expired".toList), st)
  | some r =>
    if r.expiresAt < now then
      (Except.error (QueryFailure.notFound "Query expired".toList), deleteRecord cursor st)
    else
      let chunks := r.chunks
      let currentIndex := r.cursor
      if chunks.length ≤ currentIndex then
        (Except.ok (AIQueryResponse.mk [] false none), deleteRecord cursor st)
      else
        let currentChunk := chunks.getD currentIndex []
        if currentIndex + 1 < chunks.length then
          (Except.ok (AIQueryResponse.mk currentChunk true (some cursor)),
            updateRecordCursor cursor (currentIndex + 1) st)
        else
          (Except.ok (AIQueryResponse.mk currentChunk false none), deleteRecord cursor st)

/-! ## Predicates used to state the claims -/

/-- `Interleaves content frags`: `content` is the in-order concatenation of
`frags` interleaved with (possibly empty) whitespace-only strings. -/
def Interleaves : List Char → List (List Char) → Prop
  | s, [] => wsOnly s
  | s, f :: fs => ∃ w rest, wsOnly w ∧ s = w ++ f ++ rest ∧ Interleaves rest fs

/-- Adjacent characters are not both spaces. -/
def noTwoSpaces (a b : Char) : Prop := ¬ (a = ' ' ∧ b = ' ')

/-- No two consecutive characters of `l` are both spaces. -/
def noDoubleSpaces (l : List Char) : Prop := List.Chain' noTwoSpaces l

/-- `pat` occurs as a contiguous segment of `l`. -/
def containsSeg (pat : List Char) : List Char → Bool
  | [] => pat = []
  | c :: rest => (c :: rest).take pat.length = pat ∨ containsSeg pat rest

/-- A cut position is outside every unbalanced bracket span: the text before
the cut has at least as many closing as opening brackets of each kind. -/
def cutBalanced (before : List Char) : Prop :=
  before.count '(' ≤ before.count ')' ∧
  before.count '[' ≤ before.count ']' ∧
  before.count openBraceCh ≤ before.count closeBraceCh

instance cutBalanced.instDecidable (l : List Char) : Decidable (cutBalanced l) := by
  unfold cutBalanced; infer_instance

/-- Each of the three bracket kinds is balanced overall. -/
def bracketsBalanced (l : List Char) : Prop :=
  l.count '(' = l.count ')' ∧ l.count '[' = l.count ']' ∧
  l.count openBraceCh = l.count closeBraceCh

instance bracketsBalanced.instDecidable (l : List Char) : Decidable (bracketsBalanced l) := by
  unfold bracketsBalanced; infer_instance

/-- `continueAIQuery` failed with a `NotFoundError`. -/
def IsNotFound (x : Except QueryFailure AIQueryResponse) : Prop :=
  ∃ msg, x = Except.error (QueryFailure.notFound msg)

/-- A line is already trimmed. -/
def lineTrimmed (l : List Char) : Prop := trimJS l = l

/-- Plain text, for the idempotence claim: no character of any recognized
markup construct, no mapped math glyph (all characters ASCII), no line that
is a horizontal rule or starts a list marker or ordered-list marker, and no
abnormal whitespace (the text is a fixed point of whitespace
normalization). -/
def PlainText (l : List Char) : Prop :=
  (∀ c ∈ l, c.toNat ≤ 127) ∧
  (∀ c ∈ l, ¬ (c = backquoteCh ∨ c = '*' ∨ c = '_' ∨ c = '~' ∨ c = '[' ∨
    c = '|' ∨ c = '#' ∨ c = '>')) ∧
  (∀ line ∈ splitNl l, ¬ (∃ c, line.head? = some c ∧ (c = '-' ∨ c = '+') ∧
    (line.tail = [] ∨ (∃ d, line.tail.head? = some d ∧ isWs d = true)))) ∧
  (∀ line ∈ splitNl l, ¬ (3 ≤ line.length ∧ ∀ c ∈ line, c = '-')) ∧
  (∀ line ∈ splitNl l, ¬ (line.takeWhile isDigitCh ≠ [] ∧
    (line.dropWhile isDigitCh).head? = some '.' ∧
    ((line.dropWhile isDigitCh).tail = [] ∨
      (∃ d, (line.dropWhile isDigitCh).tail.head? = some d ∧ isWs d = true)))) ∧
  normalizeWhitespace l = l

instance PlainText.instDecidable (l : List Char) : Decidable (PlainText l) := by
  unfold PlainText; infer_instance

/-! ## Trim lemmas -/

theorem wsOnly_takeWhile (l : List Char) : wsOnly (l.takeWhile isWs) := by
  intro c hc
  exact List.mem_takeWhile_imp hc

theorem trimLeft_decomp (l : List Char) : l = l.takeWhile isWs ++ trimLeft l :=
  (List.takeWhile_append_dropWhile isWs l).symm

theorem trimRight_decomp (l : List Char) :
    l = trimRight l ++ (l.reverse.takeWhile isWs).reverse := by
  unfold trimRight
  conv_lhs => rw [← List.reverse_reverse l]
  rw [← List.reverse_append]
  congr 1
  exact (List.takeWhile_append_dropWhile isWs l.reverse).symm

/-- Any string splits as whitespace, its trim, whitespace. -/
theorem trimJS_decomp (l : List Char) :
    ∃ a b, wsOnly a ∧ wsOnly b ∧ l = a ++ trimJS l ++ b := by
  refine ⟨l.takeWhile isWs, ((trimLeft l).reverse.takeWhile isWs).reverse, wsOnly_takeWhile l, ?_, ?_⟩
  · intro c hc
    rw [List.mem_reverse] at hc
    exact List.mem_takeWhile_imp hc
  · conv_lhs => rw [trimLeft_decomp l]
    rw [List.append_assoc]
    congr 1
    exact trimRight_decomp (trimLeft l)

theorem trimLeft_length_le (l : List Char) : (trimLeft l).length ≤ l.length :=
  (List.dropWhile_suffix isWs).length_le

theorem trimRight_length_le (l : List Char) : (trimRight l).length ≤ l.length := by
  unfold trimRight
  rw [List.length_reverse]
  calc (l.reverse.dropWhile isWs).length ≤ l.reverse.length :=
        (List.dropWhile_suffix isWs).length_le
    _ = l.length := List.length_reverse l

theorem trimJS_length_le (l : List Char) : (trimJS l).length ≤ l.length :=
  Nat.le_trans (trimRight_length_le (trimLeft l)) (trimLeft_length_le l)

/-! ## C8 — texts that fit in one chunk -/

/-- C8: for `maxSize > 0` and `length(text) ≤ maxSize`, `chunkResponse`
returns the single-element sequence `[text]`. -/
theorem chunkResponse_single (content : List Char) (maxChunkSize : Nat)
    (hpos : 0 < maxChunkSize) (hle : content.length ≤ maxChunkSize) :
    chunkResponse content maxChunkSize = [content] := by
  unfold chunkResponse
  rw [if_pos hle]

/-- Witness for C8 at a concrete input. -/
theorem chunkResponse_single_witness :
    0 < 2500 ∧ ("Two plus two is four.".toList.length ≤ 2500) ∧
      chunkResponse "Two plus two is four.".toList 2500 = ["Two plus two is four.".toList] :=
  ⟨by decide, by decide,
    chunkResponse_single "Two plus two is four.".toList 2500 (by decide) (by decide)⟩

/-! ## C4 — every fragment is bounded by `maxSize` -/

theorem chunkLoop_length_le (maxChunkSize : Nat) :
    ∀ (fuel : Nat) (rem : List Char), ∀ f ∈ chunkLoop maxChunkSize fuel rem,
      f.length ≤ maxChunkSize := by
  intro fuel
  induction fuel with
  | zero => intro rem f hf; simp [chunkLoop] at hf
  | succ n ih =>
    intro rem f hf
    rw [chunkLoop] at hf
    by_cases h0 : rem = []
    · simp [h0] at hf
    · rw [if_neg h0] at hf
      by_cases h1 : rem.length ≤ maxChunkSize
      · rw [if_pos h1] at hf
        simp at hf
        subst hf
        exact h1
      · rw [if_neg h1] at hf
        simp only [List.mem_cons] at hf
        rcases hf with hf | hf
        · subst hf
          calc (trimJS ((rem.take maxChunkSize).take (findSafeBoundary (rem.take maxChunkSize)))).length
              ≤ ((rem.take maxChunkSize).take (findSafeBoundary (rem.take maxChunkSize))).length :=
                trimJS_length_le _
            _ ≤ (rem.take maxChunkSize).length := by
                rw [List.length_take, List.length_take]
                omega
            _ ≤ maxChunkSize := by rw [List.length_take]; omega
        · exact ih _ f hf

/-- C4: every fragment produced by `chunkResponse text maxSize` (for
`maxSize > 0`) has length at most `maxSize`. -/
theorem chunkResponse_length_le (content : List Char) (maxChunkSize : Nat)
    (hpos : 0 < maxChunkSize) :
    ∀ f ∈ chunkResponse content maxChunkSize, f.length ≤ maxChunkSize := by
  intro f hf
  unfold chunkResponse at hf
  by_cases h : content.length ≤ maxChunkSize
  · rw [if_pos h] at hf
    simp at hf
    subst hf
    exact h
  · rw [if_neg h] at hf
    exact chunkLoop_length_le maxChunkSize content.length content f hf

/-- Witness for C4 at a concrete input that splits into several fragments. -/
theorem chunkResponse_length_le_witness :
    "(aaaa".toList.length ≤ 8 :=
  chunkResponse_length_le "(aaaa bbb)".toList 8 (by decide) "(aaaa".toList (by decide)

/-! ## Interleaving lemmas and C5 -/

theorem wsOnly_append {a b : List Char} (ha : wsOnly a) (hb : wsOnly b) :
    wsOnly (a ++ b) := by
  intro c hc
  rcases List.mem_append.mp hc with h | h
  · exact ha c h
  · exact hb c h

theorem Interleaves.append_ws {s w : List Char} {fs : List (List Char)}
    (h : Interleaves s fs) (hw : wsOnly w) : Interleaves (s ++ w) fs := by
  induction fs generalizing s with
  | nil => exact wsOnly_append h hw
  | cons f fs ih =>
    obtain ⟨w0, rest, hw0, hs, hrest⟩ := h
    exact ⟨w0, rest ++ w, hw0, by rw [hs]; simp, ih hrest⟩

theorem Interleaves.ws_append {s w : List Char} {fs : List (List Char)}
    (hw : wsOnly w) (h : Interleaves s fs) : Interleaves (w ++ s) fs := by
  cases fs with
  | nil => exact wsOnly_append hw h
  | cons f fs =>
    obtain ⟨w0, rest, hw0, hs, hrest⟩ := h
    exact ⟨w ++ w0, rest, wsOnly_append hw hw0, by rw [hs]; simp, hrest⟩

theorem foldl_max_le (xs : List Int) (a b : Int) (ha : a ≤ b)
    (h : ∀ x ∈ xs, x ≤ b) : xs.foldl max a ≤ b := by
  induction xs generalizing a with
  | nil => exact ha
  | cons x xs ih =>
    simp only [List.foldl_cons]
    exact ih (max a x) (max_le ha (h x (List.mem_cons_self x xs)))
      (fun y hy => h y (List.mem_cons_of_mem x hy))

theorem foldl_max_mem (xs : List Int) (a : Int) :
    xs.foldl max a = a ∨ xs.foldl max a ∈ xs := by
  induction xs generalizing a with
  | nil => left; rfl
  | cons x xs ih =>
    simp only [List.foldl_cons]
    rcases ih (max a x) with h | h
    · rw [h]
      rcases max_choice a x with h' | h'
      · left; exact h'
      · right; rw [h']; exact List.mem_cons_self x xs
    · right; exact List.mem_cons_of_mem x h

theorem findLastSentenceEnd_le (text : List Char) :
    findLastSentenceEnd text ≤ (text.length : Int) := by
  unfold findLastSentenceEnd
  apply foldl_max_le
  · omega
  · intro x hx
    rw [List.mem_map] at hx
    obtain ⟨i, hi, rfl⟩ := hx
    have hr := List.mem_range.mp (List.mem_filter.mp hi).1
    simp only [Int.ofNat_eq_coe]
    omega

theorem findLastClauseEnd_le (text : List Char) :
    findLastClauseEnd text ≤ (text.length : Int) := by
  unfold findLastClauseEnd
  apply foldl_max_le
  · omega
  · intro x hx
    rw [List.mem_map] at hx
    obtain ⟨i, hi, rfl⟩ := hx
    have hr := List.mem_range.mp (List.mem_filter.mp hi).1
    simp only [Int.ofNat_eq_coe]
    omega

theorem lastIndexOfSpace_lt (text : List Char) :
    lastIndexOfSpace text < (text.length : Int) ∨ lastIndexOfSpace text = -1 := by
  unfold lastIndexOfSpace
  rcases foldl_max_mem (((List.range text.length).filter
      (fun i => text.get? i = some ' ')).map Int.ofNat) (-1) with h | h
  · right; exact h
  · left
    rw [List.mem_map] at h
    obtain ⟨i, hi, hx⟩ := h
    have hr := List.mem_range.mp (List.mem_filter.mp hi).1
    rw [← hx]
    simp only [Int.ofNat_eq_coe]
    omega

theorem findSafeBoundary_le (text : List Char) :
    findSafeBoundary text ≤ text.length := by
  unfold findSafeBoundary findSafeBoundaryT
  simp only
  split
  · have := findLastSentenceEnd_le text
    omega
  · split
    · have := findLastClauseEnd_le text
      omega
    · split
      · rcases lastIndexOfSpace_lt text with h | h
        · omega
        · omega
      · omega

theorem findSafeBoundary_pos (text : List Char) (h : text ≠ []) :
    1 ≤ findSafeBoundary text := by
  have hlen : 1 ≤ text.length := by
    cases text with
    | nil => exact absurd rfl h
    | cons c rest => simp
  unfold findSafeBoundary findSafeBoundaryT
  simp only
  split
  · omega
  · split
    · omega
    · split
      · omega
      · omega

theorem chunkLoop_interleaves (maxChunkSize : Nat) (hpos : 0 < maxChunkSize) :
    ∀ (fuel : Nat) (rem : List Char), rem.length ≤ fuel →
      Interleaves rem (chunkLoop maxChunkSize fuel rem) := by
  intro fuel
  induction fuel with
  | zero =>
    intro rem hlen
    have : rem = [] := List.eq_nil_of_length_eq_zero (Nat.le_zero.mp hlen)
    subst this
    simp only [chunkLoop]
    exact fun c hc => absurd hc (List.not_mem_nil c)
  | succ n ih =>
    intro rem hlen
    rw [chunkLoop]
    by_cases h0 : rem = []
    · rw [if_pos h0]
      subst h0
      exact fun c hc => absurd hc (List.not_mem_nil c)
    · rw [if_neg h0]
      by_cases h1 : rem.length ≤ maxChunkSize
      · rw [if_pos h1]
        exact ⟨[], [], (fun c hc => absurd hc (List.not_mem_nil c)), by simp,
          (fun c hc => absurd hc (List.not_mem_nil c))⟩
      · rw [if_neg h1]
        simp only
        set b := findSafeBoundary (rem.take maxChunkSize) with hb
        have hchunklen : (rem.take maxChunkSize).length = maxChunkSize := by
          rw [List.length_take]
          omega
        have hbpos : 1 ≤ b := by
          apply findSafeBoundary_pos
          intro hnil
          rw [hnil] at hchunklen
          simp at hchunklen
          omega
        have hble : b ≤ maxChunkSize := by
          have := findSafeBoundary_le (rem.take maxChunkSize)
          omega
        have htt : (rem.take maxChunkSize).take b = rem.take b := by
          rw [List.take_take]
          congr 1
          omega
        rw [htt]
        obtain ⟨a1, b1, ha1, hb1, hd1⟩ := trimJS_decomp (rem.take b)
        obtain ⟨a2, b2, ha2, hb2, hd2⟩ := trimJS_decomp (rem.drop b)
        have hrest : (trimJS (rem.drop b)).length ≤ n := by
          have h3 := trimJS_length_le (rem.drop b)
          rw [List.length_drop] at h3
          omega
        have hsplit : rem = (a1 ++ trimJS (rem.take b) ++ b1) ++
            (a2 ++ trimJS (rem.drop b) ++ b2) := by
          calc rem = rem.take b ++ rem.drop b := (List.take_append_drop b rem).symm
            _ = (a1 ++ trimJS (rem.take b) ++ b1) ++ (a2 ++ trimJS (rem.drop b) ++ b2) := by
                rw [← hd1, ← hd2]
        refine ⟨a1, b1 ++ a2 ++ trimJS (rem.drop b) ++ b2, ha1, ?_, ?_⟩
        · conv_lhs => rw [hsplit]
          simp [List.append_assoc]
        · have step1 : Interleaves (trimJS (rem.drop b) ++ b2)
              (chunkLoop maxChunkSize n (trimJS (rem.drop b))) :=
            (ih _ hrest).append_ws hb2
          have step2 := step1.ws_append ha2
          have step3 := (step2.ws_append hb1)
          simpa [List.append_assoc] using step3

/-- C5: for every text and `maxSize > 0`, the input is exactly the in-order
concatenation of the fragments of `chunkResponse text maxSize` interleaved
with (possibly empty) whitespace-only strings. -/
theorem chunkResponse_reconstructs (content : List Char) (maxChunkSize : Nat)
    (hpos : 0 < maxChunkSize) :
    Interleaves content (chunkResponse content maxChunkSize) := by
  unfold chunkResponse
  by_cases h : content.length ≤ maxChunkSize
  · rw [if_pos h]
    exact ⟨[], [], (fun c hc => absurd hc (List.not_mem_nil c)), by simp,
      (fun c hc => absurd hc (List.not_mem_nil c))⟩
  · rw [if_neg h]
    exact chunkLoop_interleaves maxChunkSize hpos content.length content (Nat.le_refl _)

/-- Witness for C5 at a concrete multi-fragment input. -/
theorem chunkResponse_reconstructs_witness :
    Interleaves "(aaaa bbb)".toList (chunkResponse "(aaaa bbb)".toList 8) :=
  chunkResponse_reconstructs "(aaaa bbb)".toList 8 (by decide)

/-! ## C2 — bracket safety of chunk boundaries -/

/-- C2 counterexample: `"(aaaa bbb)"` has balanced brackets and `maxSize = 8`
is positive, yet the single cut chosen by `chunkResponse` (by the word-space
rule, which never consults `isInsideBrackets`) has text `"(aaaa"` before the
cut: one open parenthesis and no closing one. -/
theorem chunk_cut_inside_brackets_counterexample :
    bracketsBalanced "(aaaa bbb)".toList ∧ 0 < 8 ∧
      chunkCuts "(aaaa bbb)".toList 8 = [("(aaaa".toList, BoundaryRule.wordEndRule)] ∧
      ¬ cutBalanced "(aaaa".toList := by
  refine ⟨by decide, by decide, by decide, by decide⟩

theorem findLastSentenceEnd_spec (t : List Char) (h : 1 ≤ findLastSentenceEnd t) :
    ∃ i, i < t.length ∧ sentAt t i = true ∧ isInsideBrackets t i = false ∧
      findLastSentenceEnd t = Int.ofNat i + 1 := by
  unfold findLastSentenceEnd at h ⊢
  rcases foldl_max_mem (((List.range t.length).filter
      (fun i => sentAt t i ∧ ¬ isInsideBrackets t i)).map
    (fun i => Int.ofNat i + 1)) (-1) with h' | h'
  · omega
  · rw [List.mem_map] at h'
    obtain ⟨i, hi, he⟩ := h'
    have hm := List.mem_filter.mp hi
    have hp := of_decide_eq_true hm.2
    exact ⟨i, List.mem_range.mp hm.1, hp.1,
      Bool.not_eq_true _ ▸ eq_false_of_ne_true (fun hb => hp.2 hb), he.symm⟩

theorem findLastClauseEnd_spec (t : List Char) (h : 1 ≤ findLastClauseEnd t) :
    ∃ i, i < t.length ∧ clauseAt t i = true ∧ isInsideBrackets t i = false ∧
      findLastClauseEnd t = Int.ofNat i + 1 := by
  unfold findLastClauseEnd at h ⊢
  rcases foldl_max_mem (((List.range t.length).filter
      (fun i => clauseAt t i ∧ ¬ isInsideBrackets t i)).map
    (fun i => Int.ofNat i + 1)) (-1) with h' | h'
  · omega
  · rw [List.mem_map] at h'
    obtain ⟨i, hi, he⟩ := h'
    have hm := List.mem_filter.mp hi
    have hp := of_decide_eq_true hm.2
    exact ⟨i, List.mem_range.mp hm.1, hp.1,
      Bool.not_eq_true _ ▸ eq_false_of_ne_true (fun hb => hp.2 hb), he.symm⟩

/-- A position not inside brackets, followed by a non-bracket character,
yields a balanced cut one position later. -/
theorem cutBalanced_of_not_inside (t : List Char) (i : Nat) (hi : i < t.length)
    (hni : isInsideBrackets t i = false)
    (hch : ∃ ch, t.get? i = some ch ∧ (ch = '.' ∨ ch = '!' ∨ ch = '?' ∨
      ch = '\n' ∨ ch = ',' ∨ ch = ';' ∨ ch = ':')) :
    cutBalanced (t.take (i + 1)) := by
  obtain ⟨ch, hget, hmem⟩ := hch
  have htake : t.take (i + 1) = t.take i ++ [ch] := by
    rw [List.get?_eq_getElem?] at hget
    rw [List.take_succ, hget]
    rfl
  have hbefore : ¬ ((t.take i).count '(' > (t.take i).count ')' ∨
      (t.take i).count '[' > (t.take i).count ']' ∨
      (t.take i).count openBraceCh > (t.take i).count closeBraceCh) := by
    intro hcontra
    rw [isInsideBrackets] at hni
    simp only [decide_eq_false_iff_not] at hni
    exact hni hcontra
  push_neg at hbefore
  obtain ⟨h1, h2, h3⟩ := hbefore
  have hcount : ∀ c : Char, (c = '(' ∨ c = ')' ∨ c = '[' ∨ c = ']' ∨
      c = openBraceCh ∨ c = closeBraceCh) → (t.take (i + 1)).count c = (t.take i).count c := by
    intro c hc
    rw [htake, List.count_append]
    have : List.count c [ch] = 0 := by
      rw [List.count_singleton']
      rcases hmem with h | h | h | h | h | h | h <;> subst h <;>
        rcases hc with h | h | h | h | h | h <;> subst h <;> decide
    omega
  unfold cutBalanced
  rw [hcount '(' (by tauto), hcount ')' (by tauto), hcount '[' (by tauto),
    hcount ']' (by tauto), hcount openBraceCh (by tauto), hcount closeBraceCh (by tauto)]
  exact ⟨h1, h2, h3⟩

theorem sentence_cut_balanced (t : List Char) (bd : Nat)
    (h : findSafeBoundaryT t = (bd, BoundaryRule.sentenceEndRule)) :
    cutBalanced (t.take bd) := by
  unfold findSafeBoundaryT at h
  simp only at h
  by_cases h1 : 2 * findLastSentenceEnd t > (t.length : Int)
  · rw [if_pos h1] at h
    have hse : 1 ≤ findLastSentenceEnd t := by omega
    obtain ⟨i, hilt, hsent, hni, heq⟩ := findLastSentenceEnd_spec t hse
    have hbd : bd = i + 1 := by
      have := congrArg Prod.fst h
      simp at this
      rw [heq] at this
      simp only [Int.ofNat_eq_coe] at this
      omega
    subst hbd
    apply cutBalanced_of_not_inside t i hilt hni
    have hs := of_decide_eq_true hsent
    rcases hs with ⟨hd, _⟩ | hn
    · rcases hd with h | h | h
      · exact ⟨'.', h, by tauto⟩
      · exact ⟨'!', h, by tauto⟩
      · exact ⟨'?', h, by tauto⟩
    · exact ⟨'\n', hn, by tauto⟩
  · rw [if_neg h1] at h
    by_cases h2 : 2 * findLastClauseEnd t > (t.length : Int)
    · rw [if_pos h2] at h
      simp at h
    · rw [if_neg h2] at h
      by_cases h3 : 2 * lastIndexOfSpace t > (t.length : Int)
      · rw [if_pos h3] at h
        simp at h
      · rw [if_neg h3] at h
        simp at h

theorem clause_cut_balanced (t : List Char) (bd : Nat)
    (h : findSafeBoundaryT t = (bd, BoundaryRule.clauseEndRule)) :
    cutBalanced (t.take bd) := by
  unfold findSafeBoundaryT at h
  simp only at h
  by_cases h1 : 2 * findLastSentenceEnd t > (t.length : Int)
  · rw [if_pos h1] at h
    simp at h
  · rw [if_neg h1] at h
    by_cases h2 : 2 * findLastClauseEnd t > (t.length : Int)
    · rw [if_pos h2] at h
      have hce : 1 ≤ findLastClauseEnd t := by omega
      obtain ⟨i, hilt, hcl, hni, heq⟩ := findLastClauseEnd_spec t hce
      have hbd : bd = i + 1 := by
        have := congrArg Prod.fst h
        simp at this
        rw [heq] at this
        simp only [Int.ofNat_eq_coe] at this
        omega
      subst hbd
      apply cutBalanced_of_not_inside t i hilt hni
      have hs := of_decide_eq_true hcl
      rcases hs.1 with h | h | h
      · exact ⟨',', h, by tauto⟩
      · exact ⟨';', h, by tauto⟩
      · exact ⟨':', h, by tauto⟩
    · rw [if_neg h2] at h
      by_cases h3 : 2 * lastIndexOfSpace t > (t.length : Int)
      · rw [if_pos h3] at h
        simp at h
      · rw [if_neg h3] at h
        simp at h

/-- C2 (amended): every cut chosen by the sentence-end or clause-end rule is
outside every unbalanced bracket span.  (The word-space and hard-cut
fallbacks do not consult `isInsideBrackets` and may cut inside brackets, as
the counterexample shows.) -/
theorem chunkCuts_soft_balanced (content : List Char) (maxChunkSize : Nat)
    (hpos : 0 < maxChunkSize) :
    ∀ p ∈ chunkCuts content maxChunkSize,
      (p.2 = BoundaryRule.sentenceEndRule ∨ p.2 = BoundaryRule.clauseEndRule) →
        cutBalanced p.1 := by
  have hloop : ∀ (fuel : Nat) (rem : List Char), ∀ p ∈ chunkCutsLoop maxChunkSize fuel rem,
      (p.2 = BoundaryRule.sentenceEndRule ∨ p.2 = BoundaryRule.clauseEndRule) →
        cutBalanced p.1 := by
    intro fuel
    induction fuel with
    | zero => intro rem p hp; simp [chunkCutsLoop] at hp
    | succ n ih =>
      intro rem p hp hrule
      rw [chunkCutsLoop] at hp
      by_cases h0 : rem = []
      · simp [h0] at hp
      · rw [if_neg h0] at hp
        by_cases h1 : rem.length ≤ maxChunkSize
        · rw [if_pos h1] at hp
          simp at hp
        · rw [if_neg h1] at hp
          simp only [List.mem_cons] at hp
          rcases hp with hp | hp
          · subst hp
            simp only at hrule ⊢
            rcases hrule with hr | hr
            · exact sentence_cut_balanced (rem.take maxChunkSize) _
                (by rw [← hr])
            · exact clause_cut_balanced (rem.take maxChunkSize) _
                (by rw [← hr])
          · exact ih _ p hp hrule
  intro p hp
  unfold chunkCuts at hp
  by_cases h : content.length ≤ maxChunkSize
  · rw [if_pos h] at hp
    simp at hp
  · rw [if_neg h] at hp
    exact hloop content.length content p hp

/-- Witness for the amended C2 at a concrete sentence-rule cut. -/
theorem chunkCuts_soft_balanced_witness :
    cutBalanced "One two.".toList :=
  chunkCuts_soft_balanced "One two. Three four. Five six. Seven.".toList 14 (by decide)
    ("One two.".toList, BoundaryRule.sentenceEndRule) (by decide) (Or.inl rfl)

/-! ## C1 / C3 / C9 / C10 — the continuation protocol and the orchestrator -/

/-- C1 (code bug): `processAIQuery` stores `chunks.slice(1)` but initializes
`cursor` to `1`, and `continueAIQuery` indexes the sliced array with that
cursor.  For a response that chunks into three fragments, the first
`continueAIQuery` call therefore returns the *third* fragment with
`has_more = false` and deletes the session; the second fragment is never
served; any further call is NotFound. -/
theorem continuation_skips_second_fragment :
    chunkResponse (sanitizeAIResponse "One two. Three four. Five six.".toList) 14 =
      ["One two.".toList, "Three four.".toList, "Five six.".toList] ∧
    processAIQuery checkContentPolicy "One two. Three four. Five six.".toList 14 7 0 3600 [] =
      (AIQueryResponse.mk "One two.".toList true (some 7),
        [ChunkRecord.mk 7 ["Three four.".toList, "Five six.".toList] 1 3600]) ∧
    continueAIQuery 7 0 [ChunkRecord.mk 7 ["Three four.".toList, "Five six.".toList] 1 3600] =
      (Except.ok (AIQueryResponse.mk "Five six.".toList false none), []) ∧
    "Three four.".toList ≠ "Five six.".toList ∧
    continueAIQuery 7 0 [] =
      (Except.error (QueryFailure.notFound "Query not found or expired".toList), []) :=
  ⟨by decide, by decide, by decide, by decide, by decide⟩

theorem find?_deleteRecord (cursor : Nat) (st : ChunkStore) :
    (deleteRecord cursor st).find? (fun r => r.queryId = cursor) = none := by
  rw [List.find?_eq_none]
  intro x hx
  have hmem := List.mem_filter.mp hx
  have h2 := of_decide_eq_true hmem.2
  simp only [decide_eq_true_eq]
  exact h2

/-- C3: `continueAIQuery` fails with NotFound exactly when the cursor matches
no stored record or the matched record is expired; and after a successful
call that reports `has_more = false` the session is gone, so any further call
on the same cursor is NotFound. -/
theorem continueAIQuery_notFound_iff :
    (∀ cursor now st, IsNotFound (continueAIQuery cursor now st).1 ↔
      (st.find? (fun r => r.queryId = cursor) = none ∨
        ∃ r, st.find? (fun r => r.queryId = cursor) = some r ∧ r.expiresAt < now)) ∧
    (∀ cursor now st resp, (continueAIQuery cursor now st).1 = Except.ok resp →
      resp.has_more = false → ∀ now2,
        IsNotFound (continueAIQuery cursor now2 (continueAIQuery cursor now st).2).1) := by
  constructor
  · intro cursor now st
    unfold continueAIQuery
    cases hfind : st.find? (fun r => r.queryId = cursor) with
    | none =>
      simp only
      constructor
      · intro _; left; trivial
      · intro _; exact ⟨_, rfl⟩
    | some r =>
      simp only
      by_cases hexp : r.expiresAt < now
      · rw [if_pos hexp]
        constructor
        · intro _; right; exact ⟨r, rfl, hexp⟩
        · intro _; exact ⟨_, rfl⟩
      · rw [if_neg hexp]
        constructor
        · intro hnf
          by_cases hlen : r.chunks.length ≤ r.cursor
          · rw [if_pos hlen] at hnf
            obtain ⟨msg, hmsg⟩ := hnf
            simp at hmsg
          · rw [if_neg hlen] at hnf
            by_cases hmore : r.cursor + 1 < r.chunks.length
            · rw [if_pos hmore] at hnf
              obtain ⟨msg, hmsg⟩ := hnf
              simp at hmsg
            · rw [if_neg hmore] at hnf
              obtain ⟨msg, hmsg⟩ := hnf
              simp at hmsg
        · intro hr
          rcases hr with hr | ⟨r', hr', hexp'⟩
          · exact absurd hr (by simp)
          · rw [Option.some_inj] at hr'
            subst hr'
            exact absurd hexp' hexp
  · intro cursor now st resp hok hmore now2
    unfold continueAIQuery at hok ⊢
    cases hfind : st.find? (fun r => r.queryId = cursor) with
    | none =>
      rw [hfind] at hok
      simp at hok
    | some r =>
      rw [hfind] at hok
      simp only at hok ⊢
      by_cases hexp : r.expiresAt < now
      · rw [if_pos hexp] at hok
        simp at hok
      · rw [if_neg hexp] at hok ⊢
        by_cases hlen : r.chunks.length ≤ r.cursor
        · rw [if_pos hlen] at hok ⊢
          simp only
          rw [find?_deleteRecord]
          exact ⟨_, rfl⟩
        · rw [if_neg hlen] at hok ⊢
          by_cases hm : r.cursor + 1 < r.chunks.length
          · rw [if_pos hm] at hok
            simp at hok
            rw [← hok] at hmore
            simp at hmore
          · rw [if_neg hm] at hok ⊢
            simp only
            rw [find?_deleteRecord]
            exact ⟨_, rfl⟩

/-- Witness for C3: a drained session (cursor past the stored chunks) answers
once with `has_more = false` and is deleted; the next call is NotFound. -/
theorem continueAIQuery_notFound_iff_witness :
    IsNotFound (continueAIQuery 7 0
      (continueAIQuery 7 0 [ChunkRecord.mk 7 ["A".toList] 1 3600]).2).1 :=
  continueAIQuery_notFound_iff.2 7 0 [ChunkRecord.mk 7 ["A".toList] 1 3600]
    (AIQueryResponse.mk [] false none) (by decide) (by decide) 0

/-- C9: whenever the policy screen reports the content unsafe,
`processAIQuery` returns the fixed blocked-content fragment with
`has_more = false` and no cursor, and the store is untouched (no continuation
session is created). -/
theorem processAIQuery_policy_blocked (screen : List Char → PolicyResult)
    (rawResponse : List Char) (maxChunkSize queryId : Nat) (now ttl : Int)
    (st : ChunkStore) (h : (screen rawResponse).safe = false) :
    processAIQuery screen rawResponse maxChunkSize queryId now ttl st =
      (AIQueryResponse.mk blockedChunk false none, st) := by
  unfold processAIQuery
  rw [if_pos h]

/-- Witness for C9 with a policy screen that blocks everything. -/
theorem processAIQuery_policy_blocked_witness :
    processAIQuery (fun _ => PolicyResult.mk false (some "unsafe".toList))
        "hello".toList 2500 1 0 3600 [] =
      (AIQueryResponse.mk blockedChunk false none, []) :=
  processAIQuery_policy_blocked (fun _ => PolicyResult.mk false (some "unsafe".toList))
    "hello".toList 2500 1 0 3600 [] rfl

/-- C10: `checkContentPolicy` reports safe for every input, so running
`processAIQuery` with it is the same function as `processAIQuery` with the
policy branch deleted — the PolicyBlocked branch is unreachable. -/
theorem checkContentPolicy_always_safe :
    (∀ s, (checkContentPolicy s).safe = true) ∧
    (∀ rawResponse maxChunkSize queryId now ttl st,
      processAIQuery checkContentPolicy rawResponse maxChunkSize queryId now ttl st =
        processAIQueryUnscreened rawResponse maxChunkSize queryId now ttl st) := by
  constructor
  · intro s; rfl
  · intro rawResponse maxChunkSize queryId now ttl st
    unfold processAIQuery processAIQueryUnscreened
    rw [if_neg (by simp [checkContentPolicy])]

/-! ## C6 — whitespace shape of sanitized output

The counterexample: trimming lines happens *after* newline runs are
collapsed, so whitespace-only lines can re-create a run of three newlines. -/

/-- C6 counterexample: sanitizing `"a\n \n \nb"` yields `"a\n\n\nb"`, which
contains a run of three consecutive newlines. -/
theorem sanitize_triple_newline_counterexample :
    sanitizeAIResponse "a\n \n \nb".toList = "a\n\n\nb".toList ∧
      containsSeg ['\n', '\n', '\n'] (sanitizeAIResponse "a\n \n \nb".toList) = true :=
  ⟨by decide, by decide⟩

theorem dropWhile_head_not {p : Char → Bool} {l : List Char} {c : Char}
    (h : (l.dropWhile p).head? = some c) : p c = false := by
  induction l with
  | nil => simp [List.dropWhile] at h
  | cons a rest ih =>
    rw [List.dropWhile_cons] at h
    by_cases hp : p a
    · rw [if_pos hp] at h
      exact ih h
    · rw [if_neg hp] at h
      simp at h
      rw [← h]
      exact eq_false_of_ne_true hp

theorem trimLeft_eq_self_of_head {l : List Char}
    (h : ∀ c, l.head? = some c → isWs c = false) : trimLeft l = l := by
  cases l with
  | nil => rfl
  | cons c rest =>
    unfold trimLeft
    rw [List.dropWhile_cons, if_neg]
    rw [h c rfl]
    simp

theorem trimLeft_head {l : List Char} (h : trimLeft l = l) :
    ∀ c, l.head? = some c → isWs c = false := by
  intro c hc
  rw [← h] at hc
  exact dropWhile_head_not hc

theorem reverse_head? (l : List Char) : l.reverse.head? = l.getLast? := by
  cases l with
  | nil => rfl
  | cons c rest => rw [List.head?_reverse]

theorem trimRight_eq_reverse_trimLeft (l : List Char) :
    trimRight l = (trimLeft l.reverse).reverse := rfl

theorem trimRight_eq_self_of_getLast {l : List Char}
    (h : ∀ c, l.getLast? = some c → isWs c = false) : trimRight l = l := by
  rw [trimRight_eq_reverse_trimLeft, trimLeft_eq_self_of_head, List.reverse_reverse]
  intro c hc
  rw [reverse_head?] at hc
  exact h c hc

theorem trimRight_getLast {l : List Char} (h : trimRight l = l) :
    ∀ c, l.getLast? = some c → isWs c = false := by
  intro c hc
  have : trimLeft l.reverse = l.reverse := by
    have := congrArg List.reverse h
    rw [trimRight_eq_reverse_trimLeft, List.reverse_reverse] at this
    exact this
  refine trimLeft_head this c ?_
  rw [reverse_head?]
  exact hc

theorem trimJS_split (l : List Char) (h : trimJS l = l) :
    trimLeft l = l ∧ trimRight l = l := by
  have h1 : (trimJS l).length ≤ (trimLeft l).length := trimRight_length_le _
  have h2 : (trimLeft l).length ≤ l.length := trimLeft_length_le _
  have h3 : (trimJS l).length = l.length := by rw [h]
  have hleft : trimLeft l = l := by
    have hsuf : trimLeft l <:+ l := List.dropWhile_suffix isWs
    exact List.IsSuffix.eq_of_length hsuf (by omega)
  refine ⟨hleft, ?_⟩
  have : trimJS l = trimRight l := by
    unfold trimJS
    rw [hleft]
  rw [← this, h]

/-- A string is trim-fixed iff its first and last characters are not
whitespace. -/
theorem trimJS_eq_self_iff (l : List Char) :
    trimJS l = l ↔ ((∀ c, l.head? = some c → isWs c = false) ∧
      (∀ c, l.getLast? = some c → isWs c = false)) := by
  constructor
  · intro h
    obtain ⟨h1, h2⟩ := trimJS_split l h
    exact ⟨trimLeft_head h1, trimRight_getLast h2⟩
  · intro ⟨h1, h2⟩
    unfold trimJS
    rw [trimLeft_eq_self_of_head h1, trimRight_eq_self_of_getLast h2]

theorem lineTrimmed_reverse {l : List Char} (h : lineTrimmed l) :
    lineTrimmed l.reverse := by
  unfold lineTrimmed at h ⊢
  rw [trimJS_eq_self_iff] at h ⊢
  refine ⟨?_, ?_⟩
  · intro c hc
    rw [reverse_head?] at hc
    exact h.2 c hc
  · intro c hc
    rw [List.getLast?_reverse] at hc
    exact h.1 c hc

theorem trimJS_idem (l : List Char) : trimJS (trimJS l) = trimJS l := by
  rw [trimJS_eq_self_iff]
  constructor
  · intro c hc
    unfold trimJS at hc
    have hpre : trimRight (trimLeft l) <+: trimLeft l := by
      rw [trimRight_eq_reverse_trimLeft]
      rw [← List.reverse_suffix]
      rw [List.reverse_reverse]
      exact List.dropWhile_suffix isWs
    obtain ⟨t, ht⟩ := hpre
    have : (trimLeft l).head? = some c := by
      rw [← ht]
      cases htr : trimRight (trimLeft l) with
      | nil => rw [htr] at hc; simp at hc
      | cons a rest =>
        rw [htr] at hc
        simp at hc
        simp [hc]
    exact dropWhile_head_not this
  · intro c hc
    unfold trimJS at hc
    rw [trimRight_eq_reverse_trimLeft, List.getLast?_reverse] at hc
    exact dropWhile_head_not hc

/-! ## Split / join lemmas -/

theorem splitNl_ne_nil (s : List Char) : splitNl s ≠ [] := by
  cases s with
  | nil => simp [splitNl]
  | cons c rest =>
    rw [splitNl]
    by_cases h : c = '\n'
    · simp [h]
    · rw [if_neg h]
      cases splitNl rest <;> simp

/-- `join('\n')` is a left inverse of `split('\n')`. -/
theorem joinNl_splitNl (s : List Char) : joinNl (splitNl s) = s := by
  induction s with
  | nil => rfl
  | cons c rest ih =>
    rw [splitNl]
    by_cases h : c = '\n'
    · rw [if_pos h]
      subst h
      cases hr : splitNl rest with
      | nil => exact absurd hr (splitNl_ne_nil rest)
      | cons r rs =>
        rw [← hr]
        show joinWith ['\n'] ([] :: splitNl rest) = '\n' :: rest
        rw [hr]
        show [] ++ ['\n'] ++ joinWith ['\n'] (r :: rs) = '\n' :: rest
        rw [← hr]
        unfold joinNl at ih
        rw [ih]
        rfl
    · rw [if_neg h]
      cases hr : splitNl rest with
      | nil => exact absurd hr (splitNl_ne_nil rest)
      | cons r rs =>
        rw [hr] at ih
        cases rs with
        | nil =>
          show joinNl [c :: r] = c :: rest
          unfold joinNl joinWith at ih ⊢
          rw [← ih]
        | cons r2 rs2 =>
          show joinNl ((c :: r) :: r2 :: rs2) = c :: rest
          unfold joinNl joinWith at ih ⊢
          rw [← ih]
          rfl

theorem splitNl_of_no_newline {l : List Char} (h : '\n' ∉ l) : splitNl l = [l] := by
  induction l with
  | nil => rfl
  | cons c rest ih =>
    rw [splitNl, if_neg (by intro hc; exact h (hc ▸ List.mem_cons_self c rest))]
    rw [ih (fun hm => h (List.mem_cons_of_mem c hm))]

theorem splitNl_append_newline {l t : List Char} (h : '\n' ∉ l) :
    splitNl (l ++ '\n' :: t) = l :: splitNl t := by
  induction l with
  | nil => simp [splitNl]
  | cons c rest ih =>
    have hc : ¬ c = '\n' := by intro hc; exact h (hc ▸ List.mem_cons_self c rest)
    rw [List.cons_append, splitNl, if_neg hc,
      ih (fun hm => h (List.mem_cons_of_mem c hm))]

theorem joinNl_cons_cons (l l2 : List Char) (ls : List (List Char)) :
    joinNl (l :: l2 :: ls) = l ++ '\n' :: joinNl (l2 :: ls) := by
  show (l ++ ['\n']) ++ joinWith ['\n'] (l2 :: ls) = _
  rw [List.append_assoc]
  rfl

/-- `split('\n')` is a left inverse of `join('\n')` on newline-free lines. -/
theorem splitNl_joinNl {ls : List (List Char)} (hne : ls ≠ [])
    (h : ∀ l ∈ ls, '\n' ∉ l) : splitNl (joinNl ls) = ls := by
  induction ls with
  | nil => exact absurd rfl hne
  | cons l ls ih =>
    cases ls with
    | nil =>
      show splitNl (joinWith ['\n'] [l]) = [l]
      exact splitNl_of_no_newline (h l (List.mem_cons_self l []))
    | cons l2 ls2 =>
      rw [joinNl_cons_cons]
      rw [splitNl_append_newline (h l (List.mem_cons_self l _))]
      rw [ih (by simp) (fun x hx => h x (List.mem_cons_of_mem l hx))]

theorem no_newline_of_mem_splitNl {s l : List Char} (h : l ∈ splitNl s) : '\n' ∉ l := by
  induction s generalizing l with
  | nil =>
    simp [splitNl] at h
    subst h
    simp
  | cons c rest ih =>
    rw [splitNl] at h
    by_cases hc : c = '\n'
    · rw [if_pos hc] at h
      rcases List.mem_cons.mp h with h | h
      · subst h; simp
      · exact ih h
    · rw [if_neg hc] at h
      cases hr : splitNl rest with
      | nil => exact absurd hr (splitNl_ne_nil rest)
      | cons r rs =>
        rw [hr] at h
        rcases List.mem_cons.mp h with h | h
        · subst h
          intro hm
          rcases List.mem_cons.mp hm with hm | hm
          · exact hc hm.symm
          · exact ih (hr ▸ List.mem_cons_self r rs) hm
        · exact ih (hr ▸ List.mem_cons_of_mem r h)

theorem joinNl_concat {ls : List (List Char)} (hne : ls ≠ []) (x : List Char) :
    joinNl (ls ++ [x]) = joinNl ls ++ '\n' :: x := by
  induction ls with
  | nil => exact absurd rfl hne
  | cons l ls ih =>
    cases ls with
    | nil =>
      show joinNl [l, x] = joinNl [l] ++ '\n' :: x
      rw [joinNl_cons_cons]
      rfl
    | cons l2 ls2 =>
      have hih := ih (by simp)
      simp only [List.cons_append] at hih ⊢
      rw [joinNl_cons_cons l l2 (ls2 ++ [x]), joinNl_cons_cons l l2 ls2, hih]
      simp

theorem reverse_joinNl (ls : List (List Char)) :
    (joinNl ls).reverse = joinNl ((ls.map List.reverse).reverse) := by
  induction ls with
  | nil => rfl
  | cons l ls ih =>
    cases ls with
    | nil => rfl
    | cons l2 ls2 =>
      rw [joinNl_cons_cons, List.reverse_append]
      have h2 : ('\n' :: joinNl (l2 :: ls2)).reverse =
          (joinNl (l2 :: ls2)).reverse ++ ['\n'] := by
        simp
      rw [h2, ih]
      have hmap : ((l :: l2 :: ls2).map List.reverse).reverse =
          ((l2 :: ls2).map List.reverse).reverse ++ [l.reverse] := by
        simp
      rw [hmap]
      have hne2 : ((l2 :: ls2).map List.reverse).reverse ≠ [] := by
        simp
      rw [joinNl_concat hne2]
      rw [List.append_assoc]
      rfl

/-! ## No-double-space lemmas -/

theorem chain'_sub {R : Char → Char → Prop} {a m b : List Char}
    (h : List.Chain' R (a ++ m ++ b)) : List.Chain' R m := by
  rw [List.append_assoc] at h
  exact (List.chain'_append.mp ((List.chain'_append.mp h).2.1)).1

theorem collapseSpacesGo_head? (fuel : Nat) (l : List Char) :
    (collapseSpacesGo fuel l).head? = l.head? := by
  cases fuel with
  | zero => rfl
  | succ n =>
    cases l with
    | nil => rfl
    | cons c rest =>
      rw [collapseSpacesGo]
      by_cases h : c = ' ' ∧ rest.head? = some ' '
      · rw [if_pos h]
        simp [h.1]
      · rw [if_neg h]
        rfl

theorem collapseSpacesGo_chain' (fuel : Nat) :
    ∀ l : List Char, l.length ≤ fuel →
      List.Chain' noTwoSpaces (collapseSpacesGo fuel l) := by
  induction fuel with
  | zero =>
    intro l hl
    have : l = [] := List.eq_nil_of_length_eq_zero (Nat.le_zero.mp hl)
    subst this
    simp [collapseSpacesGo]
  | succ n ih =>
    intro l hl
    cases l with
    | nil => simp [collapseSpacesGo]
    | cons c rest =>
      rw [collapseSpacesGo]
      by_cases h : c = ' ' ∧ rest.head? = some ' '
      · rw [if_pos h]
        rw [List.chain'_cons']
        constructor
        · intro y hy
          rw [collapseSpacesGo_head?] at hy
          have := dropWhile_head_not hy
          intro hcon
          rw [hcon.2] at this
          simp at this
        · exact ih _ (by
            simp at hl
            have hsuf : rest.dropWhile (fun x => decide (x = ' ')) <:+ rest :=
              List.dropWhile_suffix _
            have := hsuf.length_le
            omega)
      · rw [if_neg h]
        rw [List.chain'_cons']
        constructor
        · intro y hy
          rw [collapseSpacesGo_head?] at hy
          intro hcon
          exact h ⟨hcon.1, by rw [hy, hcon.2]⟩
        · exact ih _ (by simp at hl; omega)

theorem collapseNewlinesGo_head? (fuel : Nat) (l : List Char) :
    (collapseNewlinesGo fuel l).head? = l.head? := by
  cases fuel with
  | zero => rfl
  | succ n =>
    cases l with
    | nil => rfl
    | cons c rest =>
      rw [collapseNewlinesGo]
      by_cases h : c = '\n' ∧ rest.head? = some '\n' ∧ (rest.drop 1).head? = some '\n'
      · rw [if_pos h]
        simp [h.1]
      · rw [if_neg h]
        rfl

theorem chain'_of_suffix_drop {R : Char → Char → Prop} {l : List Char}
    (p : Char → Bool) (h : List.Chain' R l) : List.Chain' R (l.dropWhile p) := by
  have hd := (List.takeWhile_append_dropWhile p l).symm
  have : List.Chain' R (l.takeWhile p ++ l.dropWhile p ++ []) := by
    rw [List.append_nil, ← hd]
    exact h
  exact chain'_sub this

theorem collapseNewlinesGo_chain' (fuel : Nat) :
    ∀ l : List Char, l.length ≤ fuel → List.Chain' noTwoSpaces l →
      List.Chain' noTwoSpaces (collapseNewlinesGo fuel l) := by
  induction fuel with
  | zero =>
    intro l hl _
    have : l = [] := List.eq_nil_of_length_eq_zero (Nat.le_zero.mp hl)
    subst this
    simp [collapseNewlinesGo]
  | succ n ih =>
    intro l hl hch
    cases l with
    | nil => simp [collapseNewlinesGo]
    | cons c rest =>
      rw [collapseNewlinesGo]
      by_cases h : c = '\n' ∧ rest.head? = some '\n' ∧ (rest.drop 1).head? = some '\n'
      · rw [if_pos h]
        rw [List.chain'_cons']
        refine ⟨by intro y hy; intro hcon; simp at hcon, ?_⟩
        rw [List.chain'_cons']
        refine ⟨?_, ?_⟩
        · intro y hy
          intro hcon
          simp at hcon
        · refine ih _ (by
            simp at hl
            have hsuf : rest.dropWhile (fun x => decide (x = '\n')) <:+ rest :=
              List.dropWhile_suffix _
            have := hsuf.length_le
            omega) ?_
          exact chain'_of_suffix_drop _ ((List.chain'_cons'.mp hch).2)
      · rw [if_neg h]
        rw [List.chain'_cons']
        constructor
        · intro y hy
          rw [collapseNewlinesGo_head?] at hy
          exact (List.chain'_cons'.mp hch).1 y hy
        · exact ih _ (by simp at hl; omega) (List.chain'_cons'.mp hch).2

theorem chain'_joinNl {ls : List (List Char)}
    (h : ∀ l ∈ ls, List.Chain' noTwoSpaces l) :
    List.Chain' noTwoSpaces (joinNl ls) := by
  induction ls with
  | nil => simp [joinNl, joinWith]
  | cons l ls ih =>
    cases ls with
    | nil => exact h l (List.mem_cons_self l [])
    | cons l2 ls2 =>
      rw [joinNl_cons_cons]
      rw [List.chain'_append]
      refine ⟨h l (List.mem_cons_self l _), ?_, ?_⟩
      · rw [List.chain'_cons']
        refine ⟨fun y _ hcon => by simp at hcon, ?_⟩
        exact ih (fun x hx => h x (List.mem_cons_of_mem l hx))
      · intro x _ y hy
        simp at hy
        intro hcon
        rw [hcon.2] at hy
        simp at hy

theorem chain'_trimJS {l : List Char} (h : List.Chain' noTwoSpaces l) :
    List.Chain' noTwoSpaces (trimJS l) := by
  obtain ⟨a, b, _, _, hd⟩ := trimJS_decomp l
  rw [hd] at h
  exact chain'_sub h

/-! ## Lines of the normalized output are trimmed -/

theorem mem_joinNl_sub {ls : List (List Char)} {l : List Char} (h : l ∈ ls) :
    ∃ a b, joinNl ls = a ++ l ++ b := by
  induction ls with
  | nil => simp at h
  | cons l2 ls2 ih =>
    cases ls2 with
    | nil =>
      simp at h
      subst h
      exact ⟨[], [], by simp [joinNl, joinWith]⟩
    | cons l3 ls3 =>
      rw [joinNl_cons_cons]
      rcases List.mem_cons.mp h with h | h
      · subst h
        exact ⟨[], '\n' :: joinNl (l3 :: ls3), by simp⟩
      · obtain ⟨a, b, hab⟩ := ih h
        exact ⟨l2 ++ '\n' :: a, b, by rw [hab]; simp⟩

theorem mem_splitNl_sub {s l : List Char} (h : l ∈ splitNl s) :
    ∃ a b, s = a ++ l ++ b := by
  obtain ⟨a, b, hab⟩ := mem_joinNl_sub h
  rw [joinNl_splitNl] at hab
  exact ⟨a, b, hab⟩

theorem mem_of_mem_trimJS {l : List Char} {c : Char} (h : c ∈ trimJS l) : c ∈ l := by
  obtain ⟨a, b, _, _, hd⟩ := trimJS_decomp l
  rw [hd]
  simp [h]

/-- Trimming the left of a join of trimmed newline-free lines yields a join
of trimmed newline-free lines. -/
theorem trimLeft_joinNl :
    ∀ ls : List (List Char), ls ≠ [] →
      (∀ l ∈ ls, lineTrimmed l ∧ '\n' ∉ l) →
      ∃ ls', ls' ≠ [] ∧ (∀ l ∈ ls', lineTrimmed l ∧ '\n' ∉ l) ∧
        trimLeft (joinNl ls) = joinNl ls' := by
  intro ls
  induction ls with
  | nil => intro h; exact absurd rfl h
  | cons l ls ih =>
    intro _ h
    cases ls with
    | nil =>
      cases l with
      | nil =>
        exact ⟨[[]], by simp, by intro x hx; simp at hx; subst hx; exact ⟨rfl, by simp⟩,
          rfl⟩
      | cons c r =>
        refine ⟨[c :: r], by simp, h, ?_⟩
        show trimLeft (joinNl [c :: r]) = joinNl [c :: r]
        have hl := (h (c :: r) (List.mem_cons_self _ _)).1
        have hhead := (trimJS_eq_self_iff (c :: r)).mp hl
        exact trimLeft_eq_self_of_head hhead.1
    | cons l2 ls2 =>
      cases l with
      | nil =>
        rw [joinNl_cons_cons]
        have step : trimLeft ([] ++ '\n' :: joinNl (l2 :: ls2)) =
            trimLeft (joinNl (l2 :: ls2)) := by
          show List.dropWhile isWs ('\n' :: joinNl (l2 :: ls2)) = _
          rw [List.dropWhile_cons, if_pos (by decide)]
          rfl
        rw [step]
        exact ih (by simp) (fun x hx => h x (List.mem_cons_of_mem _ hx))
      | cons c r =>
        refine ⟨(c :: r) :: l2 :: ls2, by simp, h, ?_⟩
        rw [joinNl_cons_cons]
        have hl := (h (c :: r) (List.mem_cons_self _ _)).1
        have hhead := ((trimJS_eq_self_iff (c :: r)).mp hl).1 c rfl
        show List.dropWhile isWs (c :: (r ++ '\n' :: joinNl (l2 :: ls2))) = _
        rw [List.dropWhile_cons, if_neg (by rw [hhead]; simp)]
        simp

/-- Trimming a join of trimmed newline-free lines leaves every line of the
result trimmed. -/
theorem trimJS_joinNl_lines {ls : List (List Char)} (hne : ls ≠ [])
    (h : ∀ l ∈ ls, lineTrimmed l ∧ '\n' ∉ l) :
    ∀ line ∈ splitNl (trimJS (joinNl ls)), lineTrimmed line := by
  obtain ⟨ls1, hne1, h1, he1⟩ := trimLeft_joinNl ls hne h
  have hrev1 : ∀ l ∈ (ls1.map List.reverse).reverse, lineTrimmed l ∧ '\n' ∉ l := by
    intro l hl
    rw [List.mem_reverse, List.mem_map] at hl
    obtain ⟨l0, hl0, rfl⟩ := hl
    exact ⟨lineTrimmed_reverse (h1 l0 hl0).1, by
      rw [List.mem_reverse]
      exact (h1 l0 hl0).2⟩
  obtain ⟨ls2, hne2, h2, he2⟩ := trimLeft_joinNl ((ls1.map List.reverse).reverse)
    (by simp [hne1]) hrev1
  have hfinal : trimJS (joinNl ls) = joinNl ((ls2.map List.reverse).reverse) := by
    unfold trimJS
    rw [he1]
    rw [trimRight_eq_reverse_trimLeft]
    rw [reverse_joinNl ls1, he2, reverse_joinNl ls2]
  have h3 : ∀ l ∈ (ls2.map List.reverse).reverse, lineTrimmed l ∧ '\n' ∉ l := by
    intro l hl
    rw [List.mem_reverse, List.mem_map] at hl
    obtain ⟨l0, hl0, rfl⟩ := hl
    exact ⟨lineTrimmed_reverse (h2 l0 hl0).1, by
      rw [List.mem_reverse]
      exact (h2 l0 hl0).2⟩
  intro line hline
  rw [hfinal, splitNl_joinNl (by simp [hne2]) (fun l hl => (h3 l hl).2)] at hline
  exact (h3 line hline).1

theorem normalizeWhitespace_good_lines (x : List Char) :
    ∀ l ∈ (splitNl (collapseNewlines (collapseSpaces x))).map trimJS,
      lineTrimmed l ∧ '\n' ∉ l := by
  intro l hl
  rw [List.mem_map] at hl
  obtain ⟨l0, hl0, rfl⟩ := hl
  refine ⟨trimJS_idem l0, ?_⟩
  intro hmem
  exact no_newline_of_mem_splitNl hl0 (mem_of_mem_trimJS hmem)

theorem normalizeWhitespace_chain' (x : List Char) :
    noDoubleSpaces (normalizeWhitespace x) := by
  unfold noDoubleSpaces
  have hch1 : List.Chain' noTwoSpaces (collapseSpaces x) :=
    collapseSpacesGo_chain' x.length x (Nat.le_refl _)
  have hch2 : List.Chain' noTwoSpaces (collapseNewlines (collapseSpaces x)) :=
    collapseNewlinesGo_chain' (collapseSpaces x).length (collapseSpaces x)
      (Nat.le_refl _) hch1
  have hchline : ∀ l ∈ (splitNl (collapseNewlines (collapseSpaces x))).map trimJS,
      List.Chain' noTwoSpaces l := by
    intro l hl
    rw [List.mem_map] at hl
    obtain ⟨l0, hl0, rfl⟩ := hl
    obtain ⟨a, b, hab⟩ := mem_splitNl_sub hl0
    rw [hab] at hch2
    exact chain'_trimJS (chain'_sub hch2)
  exact chain'_trimJS (chain'_joinNl hchline)

theorem normalizeWhitespace_lines (x : List Char) :
    ∀ line ∈ splitNl (normalizeWhitespace x), lineTrimmed line := by
  have hne : (splitNl (collapseNewlines (collapseSpaces x))).map trimJS ≠ [] := by
    intro hcon
    exact splitNl_ne_nil _ (List.map_eq_nil_iff.mp hcon)
  exact trimJS_joinNl_lines hne (normalizeWhitespace_good_lines x)

theorem normalizeWhitespace_trimmed (x : List Char) :
    trimJS (normalizeWhitespace x) = normalizeWhitespace x :=
  trimJS_idem _

theorem sanitizeAIResponse_eq (s : List Char) :
    sanitizeAIResponse s = normalizeWhitespace (convertTables (convertMathSymbols
      (stripMarkdown (stripCodeBlocks s)))) := Eq.refl _

/-- C6 (amended): the sanitized output has no two consecutive spaces, every
line of it is trimmed, and the whole output is trimmed.  (The claim's
remaining conjunct — no run of three or more newlines — fails: per-line
trimming runs after newline collapsing and can re-create such runs, see the
counterexample.) -/
theorem sanitize_whitespace_normalized (s : List Char) :
    noDoubleSpaces (sanitizeAIResponse s) ∧
      (∀ line ∈ splitNl (sanitizeAIResponse s), lineTrimmed line) ∧
      trimJS (sanitizeAIResponse s) = sanitizeAIResponse s := by
  have e := sanitizeAIResponse_eq s
  generalize hX : convertTables (convertMathSymbols (stripMarkdown (stripCodeBlocks s))) = X at e
  rw [e]
  exact ⟨normalizeWhitespace_chain' X, normalizeWhitespace_lines X,
    normalizeWhitespace_trimmed X⟩

/-- Witness instantiating the amended C6 at a concrete input. -/
theorem sanitize_whitespace_normalized_witness :
    trimJS (sanitizeAIResponse "  hi   there\n\nx  ".toList) =
      sanitizeAIResponse "  hi   there\n\nx  ".toList :=
  (sanitize_whitespace_normalized "  hi   there\n\nx  ".toList).2.2

/-! ## C7 — identity of the sanitizer on plain text

Each pass is the identity when its trigger characters are absent (or, for the
line-anchored passes, when no line has the trigger shape). -/

theorem splitAtFence_eq_none {l : List Char} (h : ∀ c ∈ l, ¬ c = backquoteCh) :
    splitAtFence l = none := by
  induction l with
  | nil => rfl
  | cons c rest ih =>
    rw [splitAtFence, if_neg]
    · rw [ih (fun x hx => h x (List.mem_cons_of_mem c hx))]
      rfl
    · intro hc
      exact h c (List.mem_cons_self c rest) hc.1

theorem stripFencedGo_id (fuel : Nat) {l : List Char}
    (h : ∀ c ∈ l, ¬ c = backquoteCh) : stripFencedGo fuel l = l := by
  cases fuel with
  | zero => rfl
  | succ n =>
    rw [stripFencedGo, splitAtFence_eq_none h]

theorem stripInlineCodeGo_id (fuel : Nat) : ∀ {l : List Char},
    (∀ c ∈ l, ¬ c = backquoteCh) → stripInlineCodeGo fuel l = l := by
  induction fuel with
  | zero => intro l _; rfl
  | succ n ih =>
    intro l h
    cases l with
    | nil => rfl
    | cons c rest =>
      rw [stripInlineCodeGo, if_neg]
      · rw [ih (fun x hx => h x (List.mem_cons_of_mem c hx))]
      · intro hc
        exact h c (List.mem_cons_self c rest) hc.1

theorem stripHeadersGo_id (fuel : Nat) : ∀ {l : List Char} (atStart : Bool),
    (∀ c ∈ l, ¬ c = '#') → stripHeadersGo fuel l atStart = l := by
  induction fuel with
  | zero => intro l _ _; rfl
  | succ n ih =>
    intro l atStart h
    cases l with
    | nil => rfl
    | cons c rest =>
      rw [stripHeadersGo]
      rw [if_neg]
      · rw [ih _ (fun x hx => h x (List.mem_cons_of_mem c hx))]
      · intro hc
        exact h c (List.mem_cons_self c rest) hc.1

theorem stripBoldStarsGo_id (fuel : Nat) : ∀ {l : List Char},
    (∀ c ∈ l, ¬ c = '*') → stripBoldStarsGo fuel l = l := by
  induction fuel with
  | zero => intro l _; rfl
  | succ n ih =>
    intro l h
    cases l with
    | nil => rfl
    | cons c rest =>
      rw [stripBoldStarsGo]
      rw [if_neg]
      · rw [ih (fun x hx => h x (List.mem_cons_of_mem c hx))]
      · intro hc
        exact h c (List.mem_cons_self c rest) hc.1

theorem stripBoldUnderscoresGo_id (fuel : Nat) : ∀ {l : List Char},
    (∀ c ∈ l, ¬ c = '_') → stripBoldUnderscoresGo fuel l = l := by
  induction fuel with
  | zero => intro l _; rfl
  | succ n ih =>
    intro l h
    cases l with
    | nil => rfl
    | cons c rest =>
      rw [stripBoldUnderscoresGo]
      rw [if_neg]
      · rw [ih (fun x hx => h x (List.mem_cons_of_mem c hx))]
      · intro hc
        exact h c (List.mem_cons_self c rest) hc.1

theorem stripItalicStarsGo_id (fuel : Nat) : ∀ {l : List Char},
    (∀ c ∈ l, ¬ c = '*') → stripItalicStarsGo fuel l = l := by
  induction fuel with
  | zero => intro l _; rfl
  | succ n ih =>
    intro l h
    cases l with
    | nil => rfl
    | cons c rest =>
      rw [stripItalicStarsGo]
      rw [if_neg]
      · rw [ih (fun x hx => h x (List.mem_cons_of_mem c hx))]
      · intro hc
        exact h c (List.mem_cons_self c rest) hc.1

theorem stripItalicUnderscoresGo_id (fuel : Nat) : ∀ {l : List Char},
    (∀ c ∈ l, ¬ c = '_') → stripItalicUnderscoresGo fuel l = l := by
  induction fuel with
  | zero => intro l _; rfl
  | succ n ih =>
    intro l h
    cases l with
    | nil => rfl
    | cons c rest =>
      rw [stripItalicUnderscoresGo]
      rw [if_neg]
      · rw [ih (fun x hx => h x (List.mem_cons_of_mem c hx))]
      · intro hc
        exact h c (List.mem_cons_self c rest) hc.1

theorem stripStrikethroughGo_id (fuel : Nat) : ∀ {l : List Char},
    (∀ c ∈ l, ¬ c = '~') → stripStrikethroughGo fuel l = l := by
  induction fuel with
  | zero => intro l _; rfl
  | succ n ih =>
    intro l h
    cases l with
    | nil => rfl
    | cons c rest =>
      rw [stripStrikethroughGo]
      rw [if_neg]
      · rw [ih (fun x hx => h x (List.mem_cons_of_mem c hx))]
      · intro hc
        exact h c (List.mem_cons_self c rest) hc.1

theorem stripLinksGo_id (fuel : Nat) : ∀ {l : List Char},
    (∀ c ∈ l, ¬ c = '[') → stripLinksGo fuel l = l := by
  induction fuel with
  | zero => intro l _; rfl
  | succ n ih =>
    intro l h
    cases l with
    | nil => rfl
    | cons c rest =>
      rw [stripLinksGo]
      rw [if_neg]
      · rw [ih (fun x hx => h x (List.mem_cons_of_mem c hx))]
      · intro hc
        exact h c (List.mem_cons_self c rest) hc.1

theorem stripImagesGo_id (fuel : Nat) : ∀ {l : List Char},
    (∀ c ∈ l, ¬ c = '[') → stripImagesGo fuel l = l := by
  induction fuel with
  | zero => intro l _; rfl
  | succ n ih =>
    intro l h
    cases l with
    | nil => rfl
    | cons c rest =>
      rw [stripImagesGo]
      rw [if_neg]
      · rw [ih (fun x hx => h x (List.mem_cons_of_mem c hx))]
      · intro hc
        cases rest with
        | nil => simp at hc
        | cons d rest2 =>
          simp at hc
          exact h d (List.mem_cons_of_mem c (List.mem_cons_self d rest2)) hc.2.1

theorem stripBlockquotesGo_id (fuel : Nat) : ∀ {l : List Char} (atStart : Bool),
    (∀ c ∈ l, ¬ c = '>') → stripBlockquotesGo fuel l atStart = l := by
  induction fuel with
  | zero => intro l _ _; rfl
  | succ n ih =>
    intro l atStart h
    cases l with
    | nil => rfl
    | cons c rest =>
      rw [stripBlockquotesGo]
      rw [if_neg]
      · rw [ih _ (fun x hx => h x (List.mem_cons_of_mem c hx))]
      · intro hc
        exact h c (List.mem_cons_self c rest) hc.1

theorem sqrtParenGo_id (fuel : Nat) : ∀ {l : List Char},
    (∀ c ∈ l, c.toNat ≤ 127) → sqrtParenGo fuel l = l := by
  induction fuel with
  | zero => intro l _; rfl
  | succ n ih =>
    intro l h
    cases l with
    | nil => rfl
    | cons c rest =>
      rw [sqrtParenGo]
      rw [if_neg]
      · rw [ih (fun x hx => h x (List.mem_cons_of_mem c hx))]
      · intro hc
        have := h c (List.mem_cons_self c rest)
        rw [hc.1] at this
        simp [sqrtCh] at this

theorem sqrtNumGo_id (fuel : Nat) : ∀ {l : List Char},
    (∀ c ∈ l, c.toNat ≤ 127) → sqrtNumGo fuel l = l := by
  induction fuel with
  | zero => intro l _; rfl
  | succ n ih =>
    intro l h
    cases l with
    | nil => rfl
    | cons c rest =>
      rw [sqrtNumGo]
      rw [if_neg]
      · rw [ih (fun x hx => h x (List.mem_cons_of_mem c hx))]
      · intro hc
        have := h c (List.mem_cons_self c rest)
        rw [hc.1] at this
        simp [sqrtCh] at this

theorem replaceCh_id {ch : Char} {rep l : List Char} (h : ch ∉ l) :
    replaceCh ch rep l = l := by
  induction l with
  | nil => rfl
  | cons c rest ih =>
    rw [replaceCh, if_neg]
    · rw [ih (fun hm => h (List.mem_cons_of_mem c hm))]
      rfl
    · intro hc
      exact h (hc ▸ List.mem_cons_self c rest)

theorem foldl_replaceCh_id (tbl : List (Char × List Char)) :
    ∀ {l : List Char}, (∀ e ∈ tbl, 127 < e.1.toNat) → (∀ c ∈ l, c.toNat ≤ 127) →
      tbl.foldl (fun acc e => replaceCh e.1 e.2 acc) l = l := by
  induction tbl with
  | nil => intro l _ _; rfl
  | cons e tbl ih =>
    intro l htbl hl
    rw [List.foldl_cons]
    have hid : replaceCh e.1 e.2 l = l := by
      apply replaceCh_id
      intro hm
      have h1 := htbl e (List.mem_cons_self e tbl)
      have h2 := hl e.1 hm
      omega
    rw [hid]
    exact ih (fun x hx => htbl x (List.mem_cons_of_mem e hx)) hl

theorem mathTable_high : ∀ e ∈ mathTable, 127 < e.1.toNat := by decide

theorem convertMathSymbols_id {l : List Char} (h : ∀ c ∈ l, c.toNat ≤ 127) :
    convertMathSymbols l = l := by
  unfold convertMathSymbols sqrtParen sqrtNum
  rw [sqrtParenGo_id _ h, sqrtNumGo_id _ h]
  exact foldl_replaceCh_id mathTable mathTable_high h

theorem sepLineTest_false {line : List Char} (h : '|' ∉ line) :
    sepLineTest line = false := by
  unfold sepLineTest
  cases htr : trimJS line with
  | nil => rfl
  | cons c rest =>
    simp only [decide_eq_false_iff_not]
    intro hc
    refine h ?_
    refine mem_of_mem_trimJS ?_
    rw [htr, hc.1]
    exact List.mem_cons_self _ _

theorem pipeIdxs_nil {line : List Char} (h : '|' ∉ line) : pipeIdxs line = [] := by
  unfold pipeIdxs
  rw [List.filter_eq_nil_iff]
  intro i _
  simp only [decide_eq_true_eq]
  intro hc
  exact h (List.get?_mem hc)

theorem tableRowTest_false {line : List Char} (h : '|' ∉ line) (tIdx : Nat) :
    tableRowTest line tIdx = (false, 0) := by
  unfold tableRowTest
  rw [pipeIdxs_nil h]
  rfl

theorem convertTablesGo_id : ∀ (lines : List (List Char)) (tIdx : Nat),
    (∀ l ∈ lines, '|' ∉ l) → convertTablesGo lines tIdx = lines := by
  intro lines
  induction lines with
  | nil => intro tIdx _; rfl
  | cons line rest ih =>
    intro tIdx h
    rw [convertTablesGo]
    rw [if_neg (by rw [sepLineTest_false (h line (List.mem_cons_self _ _))]; simp)]
    rw [tableRowTest_false (h line (List.mem_cons_self _ _))]
    show line :: convertTablesGo rest 0 = line :: rest
    rw [ih 0 (fun x hx => h x (List.mem_cons_of_mem line hx))]

theorem convertTables_id {l : List Char} (h : '|' ∉ l) : convertTables l = l := by
  unfold convertTables
  rw [convertTablesGo_id _ 0]
  · exact joinNl_splitNl l
  · intro line hline hmem
    obtain ⟨a, b, hab⟩ := mem_splitNl_sub hline
    exact h (by rw [hab]; simp [hmem])

/-! ### takeWhile and dropWhile toolbox for the line-anchored passes -/

theorem drop_takeWhile_length (p : Char → Bool) : ∀ l : List Char,
    l.drop (l.takeWhile p).length = l.dropWhile p := by
  intro l
  induction l with
  | nil => rfl
  | cons c rest ih =>
    cases hc : p c with
    | true => simp [List.takeWhile_cons, List.dropWhile_cons, hc, ih]
    | false => simp [List.takeWhile_cons, List.dropWhile_cons, hc]

theorem takeWhile_ne_nil_head {p : Char → Bool} {c : Char} {t : List Char}
    (h : (c :: t).takeWhile p ≠ []) : p c = true := by
  cases hc : p c with
  | true => rfl
  | false => exact absurd (by rw [List.takeWhile_cons, hc]; rfl) h

theorem dropWhile_eq_nil_all {p : Char → Bool} : ∀ {l : List Char},
    l.dropWhile p = [] → ∀ x ∈ l, p x = true := by
  intro l
  induction l with
  | nil => intro _ x hx; cases hx
  | cons c t ih =>
    intro h x hx
    cases hc : p c with
    | false =>
      rw [List.dropWhile_cons, if_neg (by simp [hc])] at h
      exact absurd h (List.cons_ne_nil c t)
    | true =>
      rw [List.dropWhile_cons, if_pos (by simp [hc])] at h
      rcases List.mem_cons.mp hx with rfl | hx2
      · exact hc
      · exact ih h x hx2

theorem takeWhile_append_all {p : Char → Bool} : ∀ {a : List Char} (b : List Char),
    (∀ x ∈ a, p x = true) →
    (a ++ b).takeWhile p = a ++ b.takeWhile p ∧ (a ++ b).dropWhile p = b.dropWhile p := by
  intro a
  induction a with
  | nil => intro b _; exact ⟨rfl, rfl⟩
  | cons c a ih =>
    intro b h
    have hc := h c (List.mem_cons_self c a)
    have hres := ih b (fun x hx => h x (List.mem_cons_of_mem c hx))
    refine ⟨?_, ?_⟩ <;>
      simp [List.cons_append, List.takeWhile_cons, List.dropWhile_cons, hc, hres.1, hres.2]

theorem takeWhile_append_stop {p : Char → Bool} : ∀ {a : List Char} (b : List Char),
    a.dropWhile p ≠ [] →
    (a ++ b).takeWhile p = a.takeWhile p ∧ (a ++ b).dropWhile p = a.dropWhile p ++ b := by
  intro a
  induction a with
  | nil => intro b h; exact absurd rfl h
  | cons c a ih =>
    intro b h
    cases hc : p c with
    | true =>
      have h2 : a.dropWhile p ≠ [] := by
        rwa [List.dropWhile_cons, if_pos (by simp [hc])] at h
      have hres := ih b h2
      refine ⟨?_, ?_⟩ <;>
        simp [List.cons_append, List.takeWhile_cons, List.dropWhile_cons, hc, hres.1, hres.2]
    | false =>
      refine ⟨?_, ?_⟩ <;>
        simp [List.cons_append, List.takeWhile_cons, List.dropWhile_cons, hc]

/-! ### One-step else lemmas for the three line-anchored scanners -/

theorem hrGo_else (fuel : Nat) (c : Char) (rest : List Char) (atStart : Bool)
    (h : ¬ (atStart = true ∧ (c = '-' ∨ c = '*' ∨ c = '_') ∧
      3 ≤ (rest.takeWhile (fun x => x = '-' ∨ x = '*' ∨ x = '_')).length + 1 ∧
      ((rest.dropWhile (fun x => x = '-' ∨ x = '*' ∨ x = '_')).head? = none ∨
       (rest.dropWhile (fun x => x = '-' ∨ x = '*' ∨ x = '_')).head? = some '\n'))) :
    stripHorizontalRulesGo (fuel + 1) (c :: rest) atStart =
      c :: stripHorizontalRulesGo fuel rest (c == '\n') := by
  rw [stripHorizontalRulesGo]
  refine if_neg ?_
  rw [drop_takeWhile_length]
  exact h

theorem lmGo_else (fuel : Nat) (c : Char) (rest : List Char) (atStart : Bool)
    (h : ¬ (atStart = true ∧
      (((c :: rest).dropWhile isWs).head? = some '-' ∨
       ((c :: rest).dropWhile isWs).head? = some '*' ∨
       ((c :: rest).dropWhile isWs).head? = some '+') ∧
      ((((c :: rest).dropWhile isWs).drop 1).takeWhile isWs ≠ []))) :
    stripListMarkersGo (fuel + 1) (c :: rest) atStart =
      c :: stripListMarkersGo fuel rest (c == '\n') := by
  rw [stripListMarkersGo]
  refine if_neg ?_
  rw [drop_takeWhile_length]
  exact h

theorem omGo_else (fuel : Nat) (c : Char) (rest : List Char) (atStart : Bool)
    (h : ¬ (atStart = true ∧
      ((c :: rest).dropWhile isWs).takeWhile isDigitCh ≠ [] ∧
      ((((c :: rest).dropWhile isWs).dropWhile isDigitCh).head? = some '.') ∧
      (((((c :: rest).dropWhile isWs).dropWhile isDigitCh).drop 1).takeWhile isWs ≠ []))) :
    stripOrderedMarkersGo (fuel + 1) (c :: rest) atStart =
      c :: stripOrderedMarkersGo fuel rest (c == '\n') := by
  rw [stripOrderedMarkersGo]
  refine if_neg ?_
  rw [drop_takeWhile_length isWs (c :: rest)]
  rw [drop_takeWhile_length isDigitCh ((c :: rest).dropWhile isWs)]
  exact h

/-! ### Scanning a newline-free segment with the multiline anchor off -/

theorem hrGo_false_append : ∀ (a : List Char) (fuel : Nat) (t : List Char), '\n' ∉ a →
    stripHorizontalRulesGo (a.length + fuel) (a ++ t) false =
      a ++ stripHorizontalRulesGo fuel t false := by
  intro a
  induction a with
  | nil => intro fuel t _; simp
  | cons c a ih =>
    intro fuel t h
    have hlen : (c :: a).length + fuel = a.length + fuel + 1 := by
      simp only [List.length_cons]; omega
    rw [hlen]
    simp only [List.cons_append]
    rw [hrGo_else _ _ _ _ (fun hg => absurd hg.1 Bool.false_ne_true)]
    have hc : (c == '\n') = false := by
      simp only [beq_eq_false_iff_ne]
      intro he
      exact h (by rw [← he]; exact List.mem_cons_self c a)
    rw [hc, ih fuel t (fun hm => h (List.mem_cons_of_mem c hm))]

theorem lmGo_false_append : ∀ (a : List Char) (fuel : Nat) (t : List Char), '\n' ∉ a →
    stripListMarkersGo (a.length + fuel) (a ++ t) false =
      a ++ stripListMarkersGo fuel t false := by
  intro a
  induction a with
  | nil => intro fuel t _; simp
  | cons c a ih =>
    intro fuel t h
    have hlen : (c :: a).length + fuel = a.length + fuel + 1 := by
      simp only [List.length_cons]; omega
    rw [hlen]
    simp only [List.cons_append]
    rw [lmGo_else _ _ _ _ (fun hg => absurd hg.1 Bool.false_ne_true)]
    have hc : (c == '\n') = false := by
      simp only [beq_eq_false_iff_ne]
      intro he
      exact h (by rw [← he]; exact List.mem_cons_self c a)
    rw [hc, ih fuel t (fun hm => h (List.mem_cons_of_mem c hm))]

theorem omGo_false_append : ∀ (a : List Char) (fuel : Nat) (t : List Char), '\n' ∉ a →
    stripOrderedMarkersGo (a.length + fuel) (a ++ t) false =
      a ++ stripOrderedMarkersGo fuel t false := by
  intro a
  induction a with
  | nil => intro fuel t _; simp
  | cons c a ih =>
    intro fuel t h
    have hlen : (c :: a).length + fuel = a.length + fuel + 1 := by
      simp only [List.length_cons]; omega
    rw [hlen]
    simp only [List.cons_append]
    rw [omGo_else _ _ _ _ (fun hg => absurd hg.1 Bool.false_ne_true)]
    have hc : (c == '\n') = false := by
      simp only [beq_eq_false_iff_ne]
      intro he
      exact h (by rw [← he]; exact List.mem_cons_self c a)
    rw [hc, ih fuel t (fun hm => h (List.mem_cons_of_mem c hm))]

/-! ### Leading whitespace of a join of trimmed lines -/

theorem dropWhile_ws_joinNl : ∀ ls : List (List Char),
    (∀ line ∈ ls, lineTrimmed line) →
    (joinNl ls).dropWhile isWs = [] ∨
    ∃ c t ls2, (c :: t) ∈ ls ∧ isWs c = false ∧
      (joinNl ls).dropWhile isWs = joinNl ((c :: t) :: ls2) ∧ ∀ x ∈ ls2, x ∈ ls := by
  intro ls
  induction ls with
  | nil => exact fun _ => Or.inl rfl
  | cons a rest ih =>
    intro h
    cases a with
    | cons c t =>
      right
      have hc : isWs c = false := by
        have := (trimJS_eq_self_iff (c :: t)).mp (h (c :: t) (List.mem_cons_self _ _))
        exact this.1 c rfl
      cases rest with
      | nil =>
        refine ⟨c, t, [], List.mem_cons_self _ _, hc, ?_, by simp⟩
        have hj : joinNl [c :: t] = c :: t := rfl
        rw [hj, List.dropWhile_cons, if_neg (by simp [hc])]
      | cons z zs =>
        refine ⟨c, t, z :: zs, List.mem_cons_self _ _, hc, ?_,
          fun x hx => List.mem_cons_of_mem _ hx⟩
        rw [joinNl_cons_cons]
        simp only [List.cons_append]
        rw [List.dropWhile_cons, if_neg (by simp [hc])]
    | nil =>
      cases rest with
      | nil => exact Or.inl rfl
      | cons z zs =>
        have hrec := ih (fun l hl => h l (List.mem_cons_of_mem _ hl))
        rw [joinNl_cons_cons]
        simp only [List.nil_append]
        rw [List.dropWhile_cons, if_pos (by decide)]
        rcases hrec with h1 | ⟨c, t, ls2, hmem, hc, heq, hsub⟩
        · exact Or.inl h1
        · exact Or.inr ⟨c, t, ls2, List.mem_cons_of_mem _ hmem, hc, heq,
            fun x hx => List.mem_cons_of_mem _ (hsub x hx)⟩

/-! ### Guard refutations at a line start, from the per-line conditions -/

theorem lm_no_marker (ls : List (List Char))
    (h : ∀ line ∈ ls, lineTrimmed line ∧ '\n' ∉ line ∧ (∀ c ∈ line, ¬ c = '*') ∧
      ¬ (∃ c, line.head? = some c ∧ (c = '-' ∨ c = '+') ∧
        (line.tail = [] ∨ (∃ d, line.tail.head? = some d ∧ isWs d = true)))) :
    ¬ ((((joinNl ls).dropWhile isWs).head? = some '-' ∨
        ((joinNl ls).dropWhile isWs).head? = some '*' ∨
        ((joinNl ls).dropWhile isWs).head? = some '+') ∧
       ((((joinNl ls).dropWhile isWs).drop 1).takeWhile isWs ≠ [])) := by
  intro hg
  rcases dropWhile_ws_joinNl ls (fun l hl => (h l hl).1) with hnil | ⟨c, t, ls2, hmem, hc, heq, hsub⟩
  · rw [hnil] at hg
    rcases hg.1 with h1 | h1 | h1 <;> exact Option.noConfusion h1
  · rw [heq] at hg
    have hbund := h (c :: t) hmem
    cases ls2 with
    | nil =>
      have hj : joinNl [c :: t] = c :: t := rfl
      rw [hj] at hg
      obtain ⟨hhead, hws2⟩ := hg
      simp only [List.drop_one, List.tail_cons] at hws2
      cases t with
      | nil => simp at hws2
      | cons f fs =>
        have hf : isWs f = true := takeWhile_ne_nil_head hws2
        rcases hhead with h1 | h1 | h1
        · exact hbund.2.2.2 ⟨c, rfl, Or.inl (Option.some.inj h1), Or.inr ⟨f, rfl, hf⟩⟩
        · exact hbund.2.2.1 c (List.mem_cons_self _ _) (Option.some.inj h1)
        · exact hbund.2.2.2 ⟨c, rfl, Or.inr (Option.some.inj h1), Or.inr ⟨f, rfl, hf⟩⟩
    | cons z zs =>
      rw [joinNl_cons_cons] at hg
      simp only [List.cons_append] at hg
      obtain ⟨hhead, hws2⟩ := hg
      simp only [List.drop_one, List.tail_cons] at hws2
      cases t with
      | nil =>
        rcases hhead with h1 | h1 | h1
        · exact hbund.2.2.2 ⟨c, rfl, Or.inl (Option.some.inj h1), Or.inl rfl⟩
        · exact hbund.2.2.1 c (List.mem_cons_self _ _) (Option.some.inj h1)
        · exact hbund.2.2.2 ⟨c, rfl, Or.inr (Option.some.inj h1), Or.inl rfl⟩
      | cons f fs =>
        simp only [List.cons_append] at hws2
        have hf : isWs f = true := takeWhile_ne_nil_head hws2
        rcases hhead with h1 | h1 | h1
        · exact hbund.2.2.2 ⟨c, rfl, Or.inl (Option.some.inj h1), Or.inr ⟨f, rfl, hf⟩⟩
        · exact hbund.2.2.1 c (List.mem_cons_self _ _) (Option.some.inj h1)
        · exact hbund.2.2.2 ⟨c, rfl, Or.inr (Option.some.inj h1), Or.inr ⟨f, rfl, hf⟩⟩

theorem om_no_marker (ls : List (List Char))
    (h : ∀ line ∈ ls, lineTrimmed line ∧ '\n' ∉ line ∧
      ¬ (line.takeWhile isDigitCh ≠ [] ∧
        (line.dropWhile isDigitCh).head? = some '.' ∧
        ((line.dropWhile isDigitCh).tail = [] ∨
          (∃ d, (line.dropWhile isDigitCh).tail.head? = some d ∧ isWs d = true)))) :
    ¬ ((((joinNl ls).dropWhile isWs).takeWhile isDigitCh ≠ []) ∧
       ((((joinNl ls).dropWhile isWs).dropWhile isDigitCh).head? = some '.') ∧
       (((((joinNl ls).dropWhile isWs).dropWhile isDigitCh).drop 1).takeWhile isWs ≠ [])) := by
  intro hg
  obtain ⟨h1, h2, h3⟩ := hg
  rcases dropWhile_ws_joinNl ls (fun l hl => (h l hl).1) with hnil | ⟨c, t, ls2, hmem, hc, heq, hsub⟩
  · rw [hnil] at h1
    exact h1 rfl
  · rw [heq] at h1 h2 h3
    have hbund := h (c :: t) hmem
    cases ls2 with
    | nil =>
      have hj : joinNl [c :: t] = c :: t := rfl
      rw [hj] at h1 h2 h3
      cases hdw : (c :: t).dropWhile isDigitCh with
      | nil =>
        rw [hdw] at h2
        exact Option.noConfusion h2
      | cons e es =>
        rw [hdw] at h2 h3
        simp only [List.drop_one, List.tail_cons] at h3
        apply hbund.2.2
        refine ⟨h1, by rw [hdw]; exact h2, ?_⟩
        rw [hdw]
        cases es with
        | nil => exact Or.inl rfl
        | cons f fs => exact Or.inr ⟨f, rfl, takeWhile_ne_nil_head h3⟩
    | cons z zs =>
      rw [joinNl_cons_cons] at h1 h2 h3
      cases hdw : (c :: t).dropWhile isDigitCh with
      | nil =>
        have hall := dropWhile_eq_nil_all hdw
        have hsplit := takeWhile_append_all ('\n' :: joinNl (z :: zs)) hall
        rw [hsplit.2] at h2
        rw [List.dropWhile_cons, if_neg (by decide)] at h2
        exact absurd (Option.some.inj h2) (by decide)
      | cons e es =>
        have hsplit := takeWhile_append_stop ('\n' :: joinNl (z :: zs))
          (by rw [hdw]; exact List.cons_ne_nil e es)
        rw [hsplit.1] at h1
        rw [hsplit.2, hdw] at h2 h3
        simp only [List.cons_append] at h2 h3
        simp only [List.drop_one, List.tail_cons] at h3
        apply hbund.2.2
        refine ⟨h1, by rw [hdw]; exact congrArg some (Option.some.inj h2), ?_⟩
        rw [hdw]
        cases es with
        | nil => exact Or.inl rfl
        | cons f fs =>
          simp only [List.cons_append] at h3
          exact Or.inr ⟨f, rfl, takeWhile_ne_nil_head h3⟩

theorem hr_no_rule (ls : List (List Char))
    (h : ∀ line ∈ ls, '\n' ∉ line ∧
      (∀ x ∈ line, ¬ (x = '*' ∨ x = '_')) ∧
      ¬ (3 ≤ line.length ∧ ∀ x ∈ line, x = '-')) :
    ∀ (c : Char) (rest : List Char), joinNl ls = c :: rest →
      ¬ ((c = '-' ∨ c = '*' ∨ c = '_') ∧
        3 ≤ (rest.takeWhile (fun x => x = '-' ∨ x = '*' ∨ x = '_')).length + 1 ∧
        ((rest.dropWhile (fun x => x = '-' ∨ x = '*' ∨ x = '_')).head? = none ∨
         (rest.dropWhile (fun x => x = '-' ∨ x = '*' ∨ x = '_')).head? = some '\n')) := by
  intro c rest hj hg
  obtain ⟨hcm, hlen, hhead⟩ := hg
  cases ls with
  | nil => exact List.noConfusion hj
  | cons line rest2 =>
    cases line with
    | nil =>
      cases rest2 with
      | nil => exact List.noConfusion hj
      | cons z zs =>
        rw [joinNl_cons_cons] at hj
        simp only [List.nil_append] at hj
        obtain ⟨hc2, _⟩ := List.cons.inj hj
        rcases hcm with h1 | h1 | h1 <;> rw [← hc2] at h1 <;> exact absurd h1 (by decide)
    | cons d t =>
      have hb := h (d :: t) (List.mem_cons_self _ _)
      cases rest2 with
      | nil =>
        have hj2 : joinNl [d :: t] = d :: t := rfl
        rw [hj2] at hj
        obtain ⟨hdc, hrt⟩ := List.cons.inj hj
        subst hdc
        subst hrt
        rcases hcm with h1 | h1 | h1
        · cases hdw : t.dropWhile (fun x => x = '-' ∨ x = '*' ∨ x = '_') with
          | cons e es =>
            rw [hdw] at hhead
            rcases hhead with h2 | h2
            · exact Option.noConfusion h2
            · have he := Option.some.inj h2
              have hmem2 : e ∈ t :=
                (List.dropWhile_suffix _).subset (by rw [hdw]; exact List.mem_cons_self e es)
              exact hb.1 (List.mem_cons_of_mem d (he ▸ hmem2))
          | nil =>
            have hall := dropWhile_eq_nil_all hdw
            have htw : t.takeWhile (fun x => x = '-' ∨ x = '*' ∨ x = '_') = t := by
              have h4 := List.takeWhile_append_dropWhile
                (fun x => decide (x = '-' ∨ x = '*' ∨ x = '_')) t
              rw [hdw, List.append_nil] at h4
              exact h4
            rw [htw] at hlen
            apply hb.2.2
            constructor
            · simp only [List.length_cons]; omega
            · intro x hx
              rcases List.mem_cons.mp hx with rfl | hx2
              · exact h1
              · rcases of_decide_eq_true (hall x hx2) with h3 | h3 | h3
                · exact h3
                · exact absurd (Or.inl h3) (hb.2.1 x (List.mem_cons_of_mem d hx2))
                · exact absurd (Or.inr h3) (hb.2.1 x (List.mem_cons_of_mem d hx2))
        · exact hb.2.1 d (List.mem_cons_self _ _) (Or.inl h1)
        · exact hb.2.1 d (List.mem_cons_self _ _) (Or.inr h1)
      | cons z zs =>
        rw [joinNl_cons_cons] at hj
        simp only [List.cons_append] at hj
        obtain ⟨hdc, hrt⟩ := List.cons.inj hj
        subst hdc
        rcases hcm with h1 | h1 | h1
        · cases hdw : t.dropWhile (fun x => x = '-' ∨ x = '*' ∨ x = '_') with
          | cons e es =>
            have hsplit := takeWhile_append_stop ('\n' :: joinNl (z :: zs))
              (by rw [hdw]; exact List.cons_ne_nil e es)
            rw [← hrt, hsplit.2, hdw] at hhead
            simp only [List.cons_append] at hhead
            rcases hhead with h2 | h2
            · exact Option.noConfusion h2
            · have he := Option.some.inj h2
              have hmem2 : e ∈ t :=
                (List.dropWhile_suffix _).subset (by rw [hdw]; exact List.mem_cons_self e es)
              exact hb.1 (List.mem_cons_of_mem d (he ▸ hmem2))
          | nil =>
            have hall := dropWhile_eq_nil_all hdw
            have hsplit := takeWhile_append_all ('\n' :: joinNl (z :: zs)) hall
            rw [← hrt, hsplit.1, List.takeWhile_cons, if_neg (by decide), List.append_nil] at hlen
            apply hb.2.2
            constructor
            · simp only [List.length_cons]; omega
            · intro x hx
              rcases List.mem_cons.mp hx with rfl | hx2
              · exact h1
              · rcases of_decide_eq_true (hall x hx2) with h3 | h3 | h3
                · exact h3
                · exact absurd (Or.inl h3) (hb.2.1 x (List.mem_cons_of_mem d hx2))
                · exact absurd (Or.inr h3) (hb.2.1 x (List.mem_cons_of_mem d hx2))
        · exact hb.2.1 d (List.mem_cons_self _ _) (Or.inl h1)
        · exact hb.2.1 d (List.mem_cons_self _ _) (Or.inr h1)

/-! ### The three line-anchored passes are the identity on joins of good lines -/

theorem stripHorizontalRulesGo_joinNl : ∀ ls : List (List Char),
    (∀ line ∈ ls, '\n' ∉ line ∧ (∀ x ∈ line, ¬ (x = '*' ∨ x = '_')) ∧
      ¬ (3 ≤ line.length ∧ ∀ x ∈ line, x = '-')) →
    stripHorizontalRulesGo (joinNl ls).length (joinNl ls) true = joinNl ls := by
  intro ls
  induction ls with
  | nil => intro _; rfl
  | cons line rest ih =>
    intro h
    have hline := h line (List.mem_cons_self line rest)
    have hrest := fun l hl => h l (List.mem_cons_of_mem line hl)
    cases line with
    | nil =>
      cases rest with
      | nil => rfl
      | cons y ys =>
        rw [joinNl_cons_cons]
        simp only [List.nil_append, List.length_cons]
        rw [hrGo_else]
        · rw [beq_self_eq_true, ih hrest]
        · intro hg
          exact hr_no_rule ([] :: y :: ys) h '\n' (joinNl (y :: ys))
            (by rw [joinNl_cons_cons]; simp only [List.nil_append])
            ⟨hg.2.1, hg.2.2.1, hg.2.2.2⟩
    | cons d t =>
      have hdn : (d == '\n') = false := by
        simp only [beq_eq_false_iff_ne]
        intro he
        exact hline.1 (by rw [← he]; exact List.mem_cons_self d t)
      have hnlt : '\n' ∉ t := fun hm => hline.1 (List.mem_cons_of_mem d hm)
      cases rest with
      | nil =>
        have hj : joinNl [d :: t] = d :: t := rfl
        rw [hj]
        simp only [List.length_cons]
        rw [hrGo_else]
        · rw [hdn]
          have h2 := hrGo_false_append t 0 [] hnlt
          have h0 : stripHorizontalRulesGo 0 [] false = [] := rfl
          rw [h0, List.append_nil, Nat.add_zero] at h2
          rw [h2]
        · intro hg
          exact hr_no_rule [d :: t] h d t hj ⟨hg.2.1, hg.2.2.1, hg.2.2.2⟩
      | cons y ys =>
        rw [joinNl_cons_cons]
        simp only [List.cons_append]
        have hlen2 : (d :: (t ++ '\n' :: joinNl (y :: ys))).length
            = t.length + ((joinNl (y :: ys)).length + 1) + 1 := by
          simp only [List.length_cons, List.length_append]
          try omega
        rw [hlen2]
        rw [hrGo_else]
        · rw [hdn]
          rw [hrGo_false_append t ((joinNl (y :: ys)).length + 1)
            ('\n' :: joinNl (y :: ys)) hnlt]
          rw [hrGo_else _ _ _ _ (fun hg => absurd hg.1 Bool.false_ne_true)]
          rw [beq_self_eq_true, ih hrest]
        · intro hg
          exact hr_no_rule ((d :: t) :: y :: ys) h d (t ++ '\n' :: joinNl (y :: ys))
            (by rw [joinNl_cons_cons]; simp only [List.cons_append])
            ⟨hg.2.1, hg.2.2.1, hg.2.2.2⟩

theorem stripListMarkersGo_joinNl : ∀ ls : List (List Char),
    (∀ line ∈ ls, lineTrimmed line ∧ '\n' ∉ line ∧ (∀ c ∈ line, ¬ c = '*') ∧
      ¬ (∃ c, line.head? = some c ∧ (c = '-' ∨ c = '+') ∧
        (line.tail = [] ∨ (∃ d, line.tail.head? = some d ∧ isWs d = true)))) →
    stripListMarkersGo (joinNl ls).length (joinNl ls) true = joinNl ls := by
  intro ls
  induction ls with
  | nil => intro _; rfl
  | cons line rest ih =>
    intro h
    have hline := h line (List.mem_cons_self line rest)
    have hrest := fun l hl => h l (List.mem_cons_of_mem line hl)
    cases line with
    | nil =>
      cases rest with
      | nil => rfl
      | cons y ys =>
        rw [joinNl_cons_cons]
        simp only [List.nil_append, List.length_cons]
        rw [lmGo_else]
        · rw [beq_self_eq_true, ih hrest]
        · intro hg
          refine lm_no_marker ([] :: y :: ys) h ?_
          rw [joinNl_cons_cons]
          simp only [List.nil_append]
          exact ⟨hg.2.1, hg.2.2⟩
    | cons d t =>
      have hdn : (d == '\n') = false := by
        simp only [beq_eq_false_iff_ne]
        intro he
        exact hline.2.1 (by rw [← he]; exact List.mem_cons_self d t)
      have hnlt : '\n' ∉ t := fun hm => hline.2.1 (List.mem_cons_of_mem d hm)
      cases rest with
      | nil =>
        have hj : joinNl [d :: t] = d :: t := rfl
        rw [hj]
        simp only [List.length_cons]
        rw [lmGo_else]
        · rw [hdn]
          have h2 := lmGo_false_append t 0 [] hnlt
          have h0 : stripListMarkersGo 0 [] false = [] := rfl
          rw [h0, List.append_nil, Nat.add_zero] at h2
          rw [h2]
        · intro hg
          refine lm_no_marker [d :: t] h ?_
          rw [hj]
          exact ⟨hg.2.1, hg.2.2⟩
      | cons y ys =>
        rw [joinNl_cons_cons]
        simp only [List.cons_append]
        have hlen2 : (d :: (t ++ '\n' :: joinNl (y :: ys))).length
            = t.length + ((joinNl (y :: ys)).length + 1) + 1 := by
          simp only [List.length_cons, List.length_append]
          try omega
        rw [hlen2]
        rw [lmGo_else]
        · rw [hdn]
          rw [lmGo_false_append t ((joinNl (y :: ys)).length + 1)
            ('\n' :: joinNl (y :: ys)) hnlt]
          rw [lmGo_else _ _ _ _ (fun hg => absurd hg.1 Bool.false_ne_true)]
          rw [beq_self_eq_true, ih hrest]
        · intro hg
          refine lm_no_marker ((d :: t) :: y :: ys) h ?_
          rw [joinNl_cons_cons]
          simp only [List.cons_append]
          exact ⟨hg.2.1, hg.2.2⟩

theorem stripOrderedMarkersGo_joinNl : ∀ ls : List (List Char),
    (∀ line ∈ ls, lineTrimmed line ∧ '\n' ∉ line ∧
      ¬ (line.takeWhile isDigitCh ≠ [] ∧
        (line.dropWhile isDigitCh).head? = some '.' ∧
        ((line.dropWhile isDigitCh).tail = [] ∨
          (∃ d, (line.dropWhile isDigitCh).tail.head? = some d ∧ isWs d = true)))) →
    stripOrderedMarkersGo (joinNl ls).length (joinNl ls) true = joinNl ls := by
  intro ls
  induction ls with
  | nil => intro _; rfl
  | cons line rest ih =>
    intro h
    have hline := h line (List.mem_cons_self line rest)
    have hrest := fun l hl => h l (List.mem_cons_of_mem line hl)
    cases line with
    | nil =>
      cases rest with
      | nil => rfl
      | cons y ys =>
        rw [joinNl_cons_cons]
        simp only [List.nil_append, List.length_cons]
        rw [omGo_else]
        · rw [beq_self_eq_true, ih hrest]
        · intro hg
          refine om_no_marker ([] :: y :: ys) h ?_
          rw [joinNl_cons_cons]
          simp only [List.nil_append]
          exact ⟨hg.2.1, hg.2.2.1, hg.2.2.2⟩
    | cons d t =>
      have hdn : (d == '\n') = false := by
        simp only [beq_eq_false_iff_ne]
        intro he
        exact hline.2.1 (by rw [← he]; exact List.mem_cons_self d t)
      have hnlt : '\n' ∉ t := fun hm => hline.2.1 (List.mem_cons_of_mem d hm)
      cases rest with
      | nil =>
        have hj : joinNl [d :: t] = d :: t := rfl
        rw [hj]
        simp only [List.length_cons]
        rw [omGo_else]
        · rw [hdn]
          have h2 := omGo_false_append t 0 [] hnlt
          have h0 : stripOrderedMarkersGo 0 [] false = [] := rfl
          rw [h0, List.append_nil, Nat.add_zero] at h2
          rw [h2]
        · intro hg
          refine om_no_marker [d :: t] h ?_
          rw [hj]
          exact ⟨hg.2.1, hg.2.2.1, hg.2.2.2⟩
      | cons y ys =>
        rw [joinNl_cons_cons]
        simp only [List.cons_append]
        have hlen2 : (d :: (t ++ '\n' :: joinNl (y :: ys))).length
            = t.length + ((joinNl (y :: ys)).length + 1) + 1 := by
          simp only [List.length_cons, List.length_append]
          try omega
        rw [hlen2]
        rw [omGo_else]
        · rw [hdn]
          rw [omGo_false_append t ((joinNl (y :: ys)).length + 1)
            ('\n' :: joinNl (y :: ys)) hnlt]
          rw [omGo_else _ _ _ _ (fun hg => absurd hg.1 Bool.false_ne_true)]
          rw [beq_self_eq_true, ih hrest]
        · intro hg
          refine om_no_marker ((d :: t) :: y :: ys) h ?_
          rw [joinNl_cons_cons]
          simp only [List.cons_append]
          exact ⟨hg.2.1, hg.2.2.1, hg.2.2.2⟩

/-! ### `stripMarkdown` and the full sanitizer on plain text -/

theorem stripMarkdown_id {s : List Char}
    (hchars : ∀ c ∈ s, ¬ (c = backquoteCh ∨ c = '*' ∨ c = '_' ∨ c = '~' ∨ c = '[' ∨
      c = '|' ∨ c = '#' ∨ c = '>'))
    (hlines : ∀ line ∈ splitNl s, lineTrimmed line)
    (hlm : ∀ line ∈ splitNl s, ¬ (∃ c, line.head? = some c ∧ (c = '-' ∨ c = '+') ∧
      (line.tail = [] ∨ (∃ d, line.tail.head? = some d ∧ isWs d = true))))
    (hhr : ∀ line ∈ splitNl s, ¬ (3 ≤ line.length ∧ ∀ c ∈ line, c = '-'))
    (hom : ∀ line ∈ splitNl s, ¬ (line.takeWhile isDigitCh ≠ [] ∧
      (line.dropWhile isDigitCh).head? = some '.' ∧
      ((line.dropWhile isDigitCh).tail = [] ∨
        (∃ d, (line.dropWhile isDigitCh).tail.head? = some d ∧ isWs d = true)))) :
    stripMarkdown s = s := by
  have hsub : ∀ line ∈ splitNl s, ∀ c ∈ line, c ∈ s := by
    intro line hline c hc
    obtain ⟨a, b, hab⟩ := mem_splitNl_sub hline
    rw [hab]
    simp [hc]
  have hnl : ∀ line ∈ splitNl s, '\n' ∉ line := fun l hl => no_newline_of_mem_splitNl hl
  have e1 : stripHeaders s = s := by
    unfold stripHeaders
    rw [stripHeadersGo_id s.length true (fun c hc he => hchars c hc
      (Or.inr (Or.inr (Or.inr (Or.inr (Or.inr (Or.inr (Or.inl he))))))))]
  have e2 : stripBoldStars s = s := by
    unfold stripBoldStars
    rw [stripBoldStarsGo_id s.length (fun c hc he => hchars c hc (Or.inr (Or.inl he)))]
  have e3 : stripBoldUnderscores s = s := by
    unfold stripBoldUnderscores
    rw [stripBoldUnderscoresGo_id s.length
      (fun c hc he => hchars c hc (Or.inr (Or.inr (Or.inl he))))]
  have e4 : stripItalicStars s = s := by
    unfold stripItalicStars
    rw [stripItalicStarsGo_id s.length (fun c hc he => hchars c hc (Or.inr (Or.inl he)))]
  have e5 : stripItalicUnderscores s = s := by
    unfold stripItalicUnderscores
    rw [stripItalicUnderscoresGo_id s.length
      (fun c hc he => hchars c hc (Or.inr (Or.inr (Or.inl he))))]
  have e6 : stripStrikethrough s = s := by
    unfold stripStrikethrough
    rw [stripStrikethroughGo_id s.length
      (fun c hc he => hchars c hc (Or.inr (Or.inr (Or.inr (Or.inl he)))))]
  have e7 : stripLinks s = s := by
    unfold stripLinks
    rw [stripLinksGo_id s.length
      (fun c hc he => hchars c hc (Or.inr (Or.inr (Or.inr (Or.inr (Or.inl he))))))]
  have e8 : stripImages s = s := by
    unfold stripImages
    rw [stripImagesGo_id s.length
      (fun c hc he => hchars c hc (Or.inr (Or.inr (Or.inr (Or.inr (Or.inl he))))))]
  have e9 : stripBlockquotes s = s := by
    unfold stripBlockquotes
    rw [stripBlockquotesGo_id s.length true (fun c hc he => hchars c hc
      (Or.inr (Or.inr (Or.inr (Or.inr (Or.inr (Or.inr (Or.inr he))))))))]
  have e10 : stripHorizontalRules s = s := by
    unfold stripHorizontalRules
    have hh := stripHorizontalRulesGo_joinNl (splitNl s) (fun line hl =>
      ⟨hnl line hl,
       fun x hx hor => hor.elim
         (fun hx2 => hchars x (hsub line hl x hx) (Or.inr (Or.inl hx2)))
         (fun hx2 => hchars x (hsub line hl x hx) (Or.inr (Or.inr (Or.inl hx2)))),
       hhr line hl⟩)
    rw [joinNl_splitNl] at hh
    exact hh
  have e11 : stripListMarkers s = s := by
    unfold stripListMarkers
    have hh := stripListMarkersGo_joinNl (splitNl s) (fun line hl =>
      ⟨hlines line hl, hnl line hl,
       fun c hc he => hchars c (hsub line hl c hc) (Or.inr (Or.inl he)),
       hlm line hl⟩)
    rw [joinNl_splitNl] at hh
    exact hh
  have e12 : stripOrderedMarkers s = s := by
    unfold stripOrderedMarkers
    have hh := stripOrderedMarkersGo_joinNl (splitNl s) (fun line hl =>
      ⟨hlines line hl, hnl line hl, hom line hl⟩)
    rw [joinNl_splitNl] at hh
    exact hh
  unfold stripMarkdown
  rw [e1, e2, e3, e4, e5, e6, e7, e8, e9, e10, e11, e12]

/-- C7: `sanitizeAIResponse` is the identity on plain text (no markup trigger
characters, no mapped math glyph — all characters ASCII — no horizontal-rule,
list-marker or ordered-list-marker line, already whitespace-normalized), and
hence idempotent on such inputs: sanitizing twice equals sanitizing once. -/
theorem sanitize_plain_idempotent (s : List Char) (h : PlainText s) :
    sanitizeAIResponse s = s ∧
      sanitizeAIResponse (sanitizeAIResponse s) = sanitizeAIResponse s := by
  obtain ⟨hascii, hchars, hlm, hhr, hom, hnw⟩ := h
  have hlines : ∀ line ∈ splitNl s, lineTrimmed line := by
    have hx := normalizeWhitespace_lines s
    rw [hnw] at hx
    exact hx
  have h1 : stripCodeBlocks s = s := by
    have hbq : ∀ c ∈ s, ¬ c = backquoteCh := fun c hc he => hchars c hc (Or.inl he)
    unfold stripCodeBlocks stripFenced stripInlineCode
    rw [stripFencedGo_id s.length hbq]
    rw [stripInlineCodeGo_id s.length hbq]
  have h2 : stripMarkdown s = s := stripMarkdown_id hchars hlines hlm hhr hom
  have h3 : convertMathSymbols s = s := convertMathSymbols_id hascii
  have h4 : convertTables s = s := convertTables_id (fun hm => hchars '|' hm
    (Or.inr (Or.inr (Or.inr (Or.inr (Or.inr (Or.inl rfl)))))))
  have e := sanitizeAIResponse_eq s
  rw [h1, h2, h3, h4, hnw] at e
  refine ⟨e, ?_⟩
  rw [e]
  exact e

/-- Witness for C7: a concrete plain-text input on which `sanitizeAIResponse`
is the identity. -/
theorem sanitize_plain_idempotent_witness :
    PlainText ("Hi there.".toList) ∧
      sanitizeAIResponse ("Hi there.".toList) = "Hi there.".toList :=
  ⟨by decide, (sanitize_plain_idempotent ("Hi there.".toList) (by decide)).1⟩

end CalX
